import Mathlib

/-!
Verification of the Technical-Lag-Analyzer core against its specification.

The Go sources are shallowly embedded: semantic versions (the
hashicorp/go-version library as used by internal/semver) become a
structure of integer segments plus prerelease/metadata strings; the
functions of internal/semver/semver.go, internal/sbom/sbom.go,
internal/technicalLag/technicalLag.go and
internal/technicalLag/hotpaths.go become executable Lean functions.
Go float64 arithmetic is modelled with exact rationals, Go int64 with
Int, Go time.Duration with integer seconds, and fallible Go functions
with Except/Option.
-/

namespace TLA

/-- Three-way comparison of integers, mirroring go-version's segment
comparison steps. -/
def cmpInt (a b : Int) : Ordering :=
  if a < b then .lt else if b < a then .gt else .eq

/-- Comparison of a segment list against an exhausted (all-zero padded)
other side. -/
def cmpTailZero : List Int → Ordering
  | [] => .eq
  | a :: as =>
    match cmpInt a 0 with
    | .eq => cmpTailZero as
    | o => o

/-- Comparison of version segment lists; a missing entry counts as 0,
as go-version pads the shorter side with zeros before comparing. -/
def cmpSegs : List Int → List Int → Ordering
  | [], bs => (cmpTailZero bs).swap
  | a :: as, [] =>
    match cmpInt a 0 with
    | .eq => cmpSegs as []
    | o => o
  | a :: as, b :: bs =>
    match cmpInt a b with
    | .eq => cmpSegs as bs
    | o => o

/-- Comparison of prerelease strings: equal strings compare equal, a
release (empty prerelease) sorts above any prerelease, and two distinct
prereleases are ordered by the string order (an abstraction of
go-version's per-part prerelease comparison; the claims below never
compare two distinct nonempty prereleases). -/
def cmpPre (a b : String) : Ordering :=
  if a = b then .eq
  else if a = "" then .gt
  else if b = "" then .lt
  else if a < b then .lt else .gt

/-- A parsed semantic version as stored by go-version: numeric segments
(padded to at least three during parsing), prerelease and metadata. -/
structure GoVersion where
  segments : List Int
  prerelease : String
  metadata : String
  deriving DecidableEq, Repr

instance : Inhabited GoVersion := ⟨⟨[0, 0, 0], "", ""⟩⟩

/-- go-version's Version.Compare: segments first, prerelease ordering on
ties (metadata is ignored by comparison). -/
def goCompare (a b : GoVersion) : Ordering :=
  match cmpSegs a.segments b.segments with
  | .eq => cmpPre a.prerelease b.prerelease
  | o => o

/-- go-version's GreaterThanOrEqual. -/
def geGo (a b : GoVersion) : Bool := goCompare a b ≠ Ordering.lt

/-- go-version's Equal. -/
def eqGo (a b : GoVersion) : Bool := goCompare a b = Ordering.eq

/-- Numeric value of a digit run. -/
def digitsVal (l : List Char) : Int :=
  l.foldl (fun acc c => acc * 10 + ((c.toNat : Int) - 48)) 0

/-- Split a character list at every dot. -/
def splitDots : List Char → List (List Char)
  | [] => [[]]
  | c :: cs =>
    if c = '.' then [] :: splitDots cs
    else
      match splitDots cs with
      | t :: ts => (c :: t) :: ts
      | [] => [[c]]

/-- Characters go-version admits inside a prerelease tail. -/
def isPreCh (c : Char) : Bool :=
  c.isAlphanum || c = '-' || c = '~' || c = '.'

/-- Characters go-version admits inside build metadata. -/
def isMetaCh (c : Char) : Bool :=
  c.isAlphanum || c = '-' || c = '~' || c = '.'

/-- Parse the prerelease tail that follows the numeric core. -/
def parsePre (rest : List Char) : Option String :=
  match rest with
  | [] => some ""
  | '-' :: r => if r ≠ [] && r.all isPreCh then some (String.mk r) else none
  | c :: r =>
    if (c.isAlpha || c = '~') && (c :: r).all isPreCh then
      some (String.mk (c :: r))
    else none

/-- Parse the metadata part (everything after the first plus sign,
which must be nonempty and free of further plus signs). -/
def parseMeta (metaPart : List Char) : Option String :=
  match metaPart with
  | [] => some ""
  | '+' :: m => if m ≠ [] && m.all isMetaCh then some (String.mk m) else none
  | _ => none

/-- go-version's NewVersion, modelled: an optional leading v, a dotted
numeric core, an optional prerelease tail introduced by a hyphen or a
letter, an optional plus-separated metadata tail.  Segments are padded
with zeros to at least major.minor.patch.  Returns none exactly when
go-version reports a parse error (on the version shapes this
development exercises). -/
def parseGoVersion (s : String) : Option GoVersion :=
  let cs0 := s.toList
  if cs0 = [] then none
  else
    let cs := if cs0.head? = some 'v' then cs0.tail else cs0
    let core := cs.takeWhile (· ≠ '+')
    let metaPart := cs.dropWhile (· ≠ '+')
    match parseMeta metaPart with
    | none => none
    | some md =>
      let segCh := core.takeWhile (fun c => c.isDigit || c = '.')
      let rest := core.dropWhile (fun c => c.isDigit || c = '.')
      let segStrs := splitDots segCh
      if segStrs.any (fun t => t.isEmpty || !t.all Char.isDigit) then none
      else
        match parsePre rest with
        | none => none
        | some pre =>
          let segs := segStrs.map digitsVal
          some ⟨segs ++ List.replicate (3 - segs.length) 0, pre, md⟩

/-! ## internal/semver/semver.go -/

/-- The error values of internal/semver. -/
inductive SemverErr
  | emptyVersion
  | invalidVersion
  | noValidVersions
  | versionNotFound
  | noVersionsProvided
  deriving DecidableEq, Repr

/-- semver.parseSemver: reject the empty string, then delegate to
go-version's NewVersion. -/
def parseSemver (raw : String) : Except SemverErr GoVersion :=
  if raw = "" then .error .emptyVersion
  else
    match parseGoVersion raw with
    | some v => .ok v
    | none => .error .invalidVersion

/-- The filter step of semver.parseAndFilterVersions: keep a version
only if it parses and carries no prerelease tag. -/
def keepValid (v : String) : Option GoVersion :=
  match parseGoVersion v with
  | none => none
  | some g => if g.prerelease = "" then some g else none

/-- Insertion into an ascending list: skip over strictly smaller
existing elements.  Together with sortCmp this models the sorting
performed by slices.SortFunc and sort.Slice (which guarantee the
comparator order of the result). -/
def insertCmp (cmp : α → α → Ordering) (g : α) : List α → List α
  | [] => [g]
  | h :: t => if cmp g h = .gt then h :: insertCmp cmp g t else g :: h :: t

/-- Comparator-based sort. -/
def sortCmp (cmp : α → α → Ordering) (l : List α) : List α :=
  l.foldr (insertCmp cmp) []

/-- The non-strict order induced by a comparator. -/
def cmpLe (cmp : α → α → Ordering) (a b : α) : Prop := cmp a b ≠ .gt

/-- The laws a three-way comparator must satisfy to behave like a total
preorder: antisymmetric swap, transitive strict part, and substitution
of comparison-equal elements. -/
structure CmpLaws (cmp : α → α → Ordering) : Prop where
  swap : ∀ a b, (cmp a b).swap = cmp b a
  lt_trans : ∀ a b c, cmp a b = .lt → cmp b c = .lt → cmp a c = .lt
  eq_congr : ∀ a b c, cmp a b = .eq → cmp a c = cmp b c

/-- The ascending sort performed by slices.SortFunc with
Version.Compare in parseAndFilterVersions. -/
def sortGoVersions (l : List GoVersion) : List GoVersion :=
  sortCmp goCompare l

/-- Head of a segment list under go-version's zero padding. -/
def hdI : List Int → Int
  | [] => 0
  | x :: _ => x

/-- Tail of a segment list under go-version's zero padding. -/
def tlI : List Int → List Int
  | [] => []
  | _ :: xs => xs

/-- semver.parseAndFilterVersions: reject an empty input, drop
unparsable and prerelease versions, reject an empty remainder, sort
ascending. -/
def parseAndFilterVersions (versions : List String) :
    Except SemverErr (List GoVersion) :=
  if versions = [] then .error .noVersionsProvided
  else if versions.filterMap keepValid = [] then .error .noValidVersions
  else .ok (sortGoVersions (versions.filterMap keepValid))

/-- semver.findVersionIndex: sort.Search for the first index whose
element is GreaterThanOrEqual the used version (on a sorted slice the
binary search returns the first index satisfying the predicate). -/
def findVersionIndex (sorted : List GoVersion) (used : GoVersion) : Nat :=
  match sorted with
  | [] => 0
  | h :: t => if geGo h used then 0 else findVersionIndex t used + 1

/-- semver.insertVersionIfMissing. -/
def insertVersionIfMissing (sorted : List GoVersion) (used : GoVersion)
    (index : Nat) : List GoVersion × Nat :=
  if index = sorted.length then (sorted ++ [used], index)
  else if eqGo (sorted.getD index default) used then (sorted, index)
  else (sorted.take index ++ used :: sorted.drop index, index)

/-- Segment access with the zero default used throughout semver.go. -/
def segAt (l : List Int) (i : Nat) : Int := l.getD i 0

/-- semver.normalizeSegments: exactly major.minor.patch. -/
def normalizeSegments (segments : List Int) : List Int :=
  if 3 ≤ segments.length then segments.take 3
  else segments ++ List.replicate (3 - segments.length) 0

/-- The classification loop of semver.calculateVersionDistance: each
version after the used index is compared with its immediate
predecessor (the used version for the first step); the first grown
segment picks the bucket, defaulting to patch. -/
def walkCounts (prev : List Int) : List GoVersion → Int × Int × Int
  | [] => (0, 0, 0)
  | v :: vs =>
    let cur := normalizeSegments v.segments
    let rest := walkCounts cur vs
    if segAt prev 0 < segAt cur 0 then (rest.1 + 1, rest.2.1, rest.2.2)
    else if segAt prev 1 < segAt cur 1 then (rest.1, rest.2.1 + 1, rest.2.2)
    else if segAt prev 2 < segAt cur 2 then (rest.1, rest.2.1, rest.2.2 + 1)
    else (rest.1, rest.2.1, rest.2.2 + 1)

/-- semver.VersionDistance. -/
structure VersionDistance where
  missedReleases : Int
  missedMajor : Int
  missedMinor : Int
  missedPatch : Int
  deriving DecidableEq, Repr

/-- semver.calculateVersionDistance, including the consistency
correction that forces the patch count to absorb any discrepancy. -/
def calculateVersionDistance (sorted : List GoVersion) (usedIndex : Nat)
    (used : GoVersion) : VersionDistance :=
  if (sorted.length : Int) - 1 - (usedIndex : Int) ≤ 0 then ⟨0, 0, 0, 0⟩
  else if (walkCounts (normalizeSegments used.segments)
        (sorted.drop (usedIndex + 1))).1 +
      (walkCounts (normalizeSegments used.segments)
        (sorted.drop (usedIndex + 1))).2.1 +
      (walkCounts (normalizeSegments used.segments)
        (sorted.drop (usedIndex + 1))).2.2 ≠
      (sorted.length : Int) - 1 - (usedIndex : Int) then
    ⟨(sorted.length : Int) - 1 - (usedIndex : Int),
      (walkCounts (normalizeSegments used.segments)
        (sorted.drop (usedIndex + 1))).1,
      (walkCounts (normalizeSegments used.segments)
        (sorted.drop (usedIndex + 1))).2.1,
      max ((sorted.length : Int) - 1 - (usedIndex : Int) -
        (walkCounts (normalizeSegments used.segments)
          (sorted.drop (usedIndex + 1))).1 -
        (walkCounts (normalizeSegments used.segments)
          (sorted.drop (usedIndex + 1))).2.1) 0⟩
  else
    ⟨(sorted.length : Int) - 1 - (usedIndex : Int),
      (walkCounts (normalizeSegments used.segments)
        (sorted.drop (usedIndex + 1))).1,
      (walkCounts (normalizeSegments used.segments)
        (sorted.drop (usedIndex + 1))).2.1,
      (walkCounts (normalizeSegments used.segments)
        (sorted.drop (usedIndex + 1))).2.2⟩

/-- semver.GetVersionDistance. -/
def getVersionDistance (usedVersion : String) (versions : List String) :
    Except SemverErr VersionDistance :=
  if versions = [] then .error .noVersionsProvided
  else
    match parseSemver usedVersion with
    | .error e => .error e
    | .ok used =>
      match parseAndFilterVersions versions with
      | .error e => .error e
      | .ok sorted =>
        .ok (calculateVersionDistance
          (insertVersionIfMissing sorted used
            (findVersionIndex sorted used)).1
          (insertVersionIfMissing sorted used
            (findVersionIndex sorted used)).2 used)

/-! ## internal/deps: Version records and publication times -/

/-- deps.Version: a version string with its publication timestamp. -/
structure DepsVersion where
  version : String
  publishedAt : String
  deriving DecidableEq, Repr

instance : Inhabited DepsVersion := ⟨⟨"", ""⟩⟩

/-- Numeric value of a digit character, if it is one. -/
def digitVal (c : Char) : Option Int :=
  if c.isDigit then some ((c.toNat : Int) - 48) else none

/-- Two-digit decimal field. -/
def twoDigits (a b : Char) : Option Int :=
  match digitVal a, digitVal b with
  | some x, some y => some (x * 10 + y)
  | _, _ => none

/-- Four-digit decimal field. -/
def fourDigits (a b c d : Char) : Option Int :=
  match twoDigits a b, twoDigits c d with
  | some x, some y => some (x * 100 + y)
  | _, _ => none

/-- Gregorian leap year. -/
def isLeapYear (y : Int) : Bool :=
  (y % 4 = 0 && y % 100 ≠ 0) || y % 400 = 0

/-- Days in a month of the proleptic Gregorian calendar. -/
def daysInMonth (y m : Int) : Int :=
  if m = 2 then (if isLeapYear y then 29 else 28)
  else if m = 4 ∨ m = 6 ∨ m = 9 ∨ m = 11 then 30
  else 31

/-- Days since the Unix epoch of a civil date (the standard
days-from-civil algorithm). -/
def daysFromCivil (y m d : Int) : Int :=
  let yy := if m ≤ 2 then y - 1 else y
  let era := (if 0 ≤ yy then yy else yy - 399) / 400
  let yoe := yy - era * 400
  let mp := (m + 9) % 12
  let doy := (153 * mp + 2) / 5 + d - 1
  let doe := yoe * 365 + yoe / 4 - yoe / 100 + doy
  era * 146097 + doe - 719468

/-- Timezone suffix of an RFC 3339 stamp: Z or a signed hh:mm offset in
seconds. -/
def parseOffset : List Char → Option Int
  | ['Z'] => some 0
  | ['+', h1, h2, ':', m1, m2] =>
    match twoDigits h1 h2, twoDigits m1 m2 with
    | some h, some m =>
      if h ≤ 23 ∧ m ≤ 59 then some (h * 3600 + m * 60) else none
    | _, _ => none
  | ['-', h1, h2, ':', m1, m2] =>
    match twoDigits h1 h2, twoDigits m1 m2 with
    | some h, some m =>
      if h ≤ 23 ∧ m ≤ 59 then some (-(h * 3600 + m * 60)) else none
    | _, _ => none
  | _ => none

/-- RFC 3339 timestamp parsing to Unix seconds, modelling Go's
time.Parse with the time.RFC3339 layout as used by deps.Version.Time
(fractional seconds are not modelled; no claim exercises them). -/
def parseRFC3339 (s : String) : Option Int :=
  match s.toList with
  | y1 :: y2 :: y3 :: y4 :: '-' :: mo1 :: mo2 :: '-' :: d1 :: d2 :: 'T' ::
      h1 :: h2 :: ':' :: mi1 :: mi2 :: ':' :: s1 :: s2 :: rest =>
    match fourDigits y1 y2 y3 y4, twoDigits mo1 mo2, twoDigits d1 d2,
        twoDigits h1 h2, twoDigits mi1 mi2, twoDigits s1 s2,
        parseOffset rest with
    | some y, some mo, some d, some h, some mi, some sec, some off =>
      if 1 ≤ mo ∧ mo ≤ 12 ∧ 1 ≤ d ∧ d ≤ daysInMonth y mo ∧
          h ≤ 23 ∧ mi ≤ 59 ∧ sec ≤ 59 then
        some (daysFromCivil y mo d * 86400 + h * 3600 + mi * 60 + sec - off)
      else none
    | _, _, _, _, _, _, _ => none
  | _ => none

/-- deps.Version.Time: reject an empty publication date, then parse it
as RFC 3339. -/
def versionTime (v : DepsVersion) : Option Int :=
  if v.publishedAt = "" then none else parseRFC3339 v.publishedAt

/-! ## internal/semver: the libyear (time distance) computation -/

/-- The filter of semver.filterValidVersions: requires a publication
date, a parsable publication date, a parsable semantic version, and no
prerelease tag. -/
def validVersion (v : DepsVersion) : Bool :=
  if v.publishedAt = "" then false
  else if (parseRFC3339 v.publishedAt).isNone then false
  else
    match parseGoVersion v.version with
    | none => false
    | some g => g.prerelease = ""

/-- semver.filterValidVersions. -/
def filterValidVersions (versions : List DepsVersion) :
    Except SemverErr (List DepsVersion) :=
  if versions = [] then .error .noVersionsProvided
  else if versions.filter validVersion = [] then .error .noValidVersions
  else .ok (versions.filter validVersion)

/-- The comparator of semver.sortVersionsBySemanticVersion: unparsable
versions sort to the end, otherwise semantic comparison. -/
def cmpDeps (a b : DepsVersion) : Ordering :=
  match parseGoVersion a.version, parseGoVersion b.version with
  | none, none => .eq
  | none, some _ => .gt
  | some _, none => .lt
  | some x, some y => goCompare x y

/-- semver.sortVersionsBySemanticVersion. -/
def sortVersionsBySemanticVersion (versions : List DepsVersion) :
    List DepsVersion :=
  sortCmp cmpDeps versions

/-- The predicate of semver.findUsedVersionIndex: an entry matches when
it parses and is semantically Equal to the used version (a parse error
yields false). -/
def matchesUsed (used : GoVersion) (v : DepsVersion) : Bool :=
  match parseGoVersion v.version with
  | none => false
  | some sv => eqGo sv used

/-- semver.findUsedVersionIndex: slices.IndexFunc for the first entry
that parses and is semantically Equal to the used version. -/
def findUsedVersionIndex (sorted : List DepsVersion) (used : GoVersion) :
    Option Nat :=
  match sorted with
  | [] => none
  | v :: vs =>
    if matchesUsed used v then some 0
    else (findUsedVersionIndex vs used).map (· + 1)

/-- semver.GetLibyear: the duration, in seconds, between the used
version's publication and the publication of the last element of the
semantically sorted valid versions, clamped at zero. -/
def getLibyear (usedVersion : String) (versions : List DepsVersion) :
    Except SemverErr Int :=
  if versions = [] then .error .noVersionsProvided
  else
    match parseSemver usedVersion with
    | .error e => .error e
    | .ok usedSemver =>
      match filterValidVersions versions with
      | .error e => .error e
      | .ok valid =>
        match findUsedVersionIndex (sortVersionsBySemanticVersion valid)
            usedSemver with
        | none => .error .versionNotFound
        | some usedIdx =>
          match versionTime
              ((sortVersionsBySemanticVersion valid).getD usedIdx default) with
          | none => .error .invalidVersion
          | some usedTime =>
            match versionTime
                ((sortVersionsBySemanticVersion valid).getD
                  ((sortVersionsBySemanticVersion valid).length - 1)
                  default) with
            | none => .error .invalidVersion
            | some newestTime =>
              .ok (if newestTime - usedTime < 0 then 0
                else newestTime - usedTime)

/-! ## internal/sbom/sbom.go -/

/-- The fields of cdx.Component used by the analyzer. -/
structure Component where
  bomRef : String
  name : String
  version : String
  packageURL : String
  scope : String
  deriving DecidableEq, Repr

/-- cdx.Dependency: a reference with an optional dependency list (nil
and empty lists are distinct, as in Go). -/
structure Dependency where
  ref : String
  dependsOn : Option (List String)
  deriving DecidableEq, Repr

/-- cdx.Metadata restricted to the field the analyzer reads. -/
structure BOMMetadata where
  component : Option Component
  deriving DecidableEq, Repr

/-- cdx.BOM restricted to the fields the analyzer reads; Option models
Go's nil pointers. -/
structure BOM where
  metadata : Option BOMMetadata
  components : Option (List Component)
  dependencies : Option (List Dependency)
  deriving DecidableEq, Repr

/-- The error values of internal/sbom (a nil *BOM argument is not
modelled: the embedding passes the BOM by value). -/
inductive SbomErr
  | noMetadata
  | noProjectComponent
  | emptyProjectRef
  | noDependencies
  | noComponents
  | projectNotFound
  | noDirectDependencies
  | emptyRef
  deriving DecidableEq, Repr

/-- sbom.ValidateBOM: none means the BOM passed validation. -/
def validateBOM (bom : BOM) : Option SbomErr :=
  match bom.metadata with
  | none => some .noMetadata
  | some md =>
    match md.component with
    | none => some .noProjectComponent
    | some c =>
      if c.bomRef = "" then some .emptyProjectRef
      else
        match bom.dependencies with
        | none => some .noDependencies
        | some _ =>
          match bom.components with
          | none => some .noComponents
          | some _ => none

/-- The project reference read after validation
(bom.Metadata.Component.BOMRef). -/
def bomRootRef (bom : BOM) : String :=
  match bom.metadata with
  | some md =>
    match md.component with
    | some c => c.bomRef
    | none => ""
  | none => ""

/-- The dereferenced dependency slice. -/
def bomDependencies (bom : BOM) : List Dependency :=
  bom.dependencies.getD []

/-- The dereferenced component slice. -/
def bomComponents (bom : BOM) : List Component :=
  bom.components.getD []

/-- sbom.findProjectDependency: the first dependency entry whose ref is
the project reference. -/
def findProjectDependency (dependencies : List Dependency)
    (projectRef : String) : Option Dependency :=
  dependencies.find? (fun d => d.ref == projectRef)

/-- sbom.GetDirectDeps: validate, locate the project's dependency
entry, fail when its dependency list is nil, otherwise return the
components matching the listed references. -/
def getDirectDeps (bom : BOM) : Except SbomErr (List Component) :=
  match validateBOM bom with
  | some e => .error e
  | none =>
    match findProjectDependency (bomDependencies bom) (bomRootRef bom) with
    | none => .error .projectNotFound
    | some projectDep =>
      match projectDep.dependsOn with
      | none => .error .noDirectDependencies
      | some refs =>
        .ok ((bomComponents bom).filter (fun c => refs.contains c.bomRef))

/-- sbom.GetDirectDependenciesOf: like GetDirectDeps but for an
arbitrary reference, returning an empty list (not an error) when the
entry is missing or has no dependency list. -/
def getDirectDependenciesOf (bom : BOM) (componentRef : String) :
    Except SbomErr (List Component) :=
  match validateBOM bom with
  | some e => .error e
  | none =>
    if componentRef = "" then .error .emptyRef
    else
      match (bomDependencies bom).find? (fun d => d.ref == componentRef) with
      | none => .ok []
      | some componentDep =>
        match componentDep.dependsOn with
        | none => .ok []
        | some refs =>
          .ok (refs.filterMap (fun depRef =>
            (bomComponents bom).find? (fun c => c.bomRef == depRef)))

/-! ## sbom.GetDependencyPath (modelled from the spec) -/

/-- The adjacency view of the dependency list: the first entry's
dependency references, or none. -/
def adjacencyOf (deps : List Dependency) (ref : String) : List String :=
  ((deps.find? (fun d => d.ref == ref)).map
    (fun d => d.dependsOn.getD [])).getD []

/-- Fuel that bounds the breadth-first search of the path query; the
spec guarantees termination through the visited set, which the fuel
realises in the embedding. -/
def bfsFuel (deps : List Dependency) : Nat :=
  deps.foldl (fun acc d => acc + 1 + (d.dependsOn.getD []).length) 1

/-- Modelled from the spec: the breadth-first search of
sbom.GetDependencyPath (PathFromRootTo, spec §4.4), whose
implementation is absent from src (only its tests and callers appear).
The queue holds pairs of a reference and the path of references from
the root (root excluded) leading to it; visited references are never
enqueued again. -/
def bfsPath (deps : List Dependency) (target : String) :
    Nat → List (String × List String) → List String → Option (List String)
  | 0, _, _ => none
  | _ + 1, [], _ => none
  | fuel + 1, (r, path) :: rest, visited =>
    if r = target then some (path ++ [r])
    else
      bfsPath deps target fuel
        (rest ++ ((adjacencyOf deps r).filter
          (fun n => !visited.contains n)).map (fun n => (n, path ++ [r])))
        (visited ++ (adjacencyOf deps r).filter (fun n => !visited.contains n))

/-- Modelled from the spec: sbom.GetDependencyPath (PathFromRootTo,
spec §4.4), absent from src.  Fails with InvalidInput for an invalid
BOM or empty target; breadth-first search from the root; returns none
(Go: nil with no error) when the target is unreachable; otherwise the
path's references resolved to components in root-to-target order,
excluding the root and including the target. -/
def getDependencyPath (bom : BOM) (targetRef : String) :
    Except SbomErr (Option (List Component)) :=
  match validateBOM bom with
  | some e => .error e
  | none =>
    if targetRef = "" then .error .emptyRef
    else
      match bfsPath (bomDependencies bom) targetRef
          (bfsFuel (bomDependencies bom))
          ((adjacencyOf (bomDependencies bom) (bomRootRef bom)).map
            (fun n => (n, [])))
          (bomRootRef bom ::
            adjacencyOf (bomDependencies bom) (bomRootRef bom)) with
      | none => .ok none
      | some refPath =>
        .ok (some (refPath.filterMap (fun r =>
          (bomComponents bom).find? (fun c => c.bomRef == r))))

/-- Reachability along the dependency adjacency, starting from the
root's direct dependencies (the root itself is not a member unless it
depends on itself). -/
inductive Reach (adj : String → List String) (root : String) : String → Prop
  | base : ∀ {r}, r ∈ adj root → Reach adj root r
  | step : ∀ {p r}, Reach adj root p → r ∈ adj p → Reach adj root r

/-- The orphan-component BOM of the repository's
TestGetDependencyPathNotFound. -/
def orphanBOM : BOM :=
  ⟨some ⟨some ⟨"pkg:npm/project@1.0.0", "test-project", "", "", ""⟩⟩,
    some [⟨"pkg:npm/direct-dep@1.0.0", "direct-dep", "1.0.0", "", "required"⟩,
      ⟨"pkg:npm/orphan@1.0.0", "orphan", "1.0.0", "", "required"⟩],
    some [⟨"pkg:npm/project@1.0.0", some ["pkg:npm/direct-dep@1.0.0"]⟩,
      ⟨"pkg:npm/direct-dep@1.0.0", some []⟩]⟩

/-! ## internal/technicalLag/technicalLag.go -/

/-- technicalLag.TechnicalLag; Libdays is Go float64, modelled
exactly with rationals. -/
structure TechnicalLag where
  libdays : ℚ
  versionDistance : VersionDistance
  deriving DecidableEq, Repr

/-- deps.VersionsAPIResponse: a version record plus the outer
publication date used as a fallback. -/
structure APIVersionEntry where
  version : DepsVersion
  publishedAt : String
  deriving DecidableEq, Repr

/-- deps.APIResponse. -/
structure APIResponse where
  versions : List APIVersionEntry
  deriving DecidableEq, Repr

/-- The conversion loop shared by Calculator.calculateComponentLag and
libyear.Calculate: fall back to the outer publication date when the
inner one is empty. -/
def convertVersions (entries : List APIVersionEntry) : List DepsVersion :=
  entries.map (fun v =>
    if v.version.publishedAt = "" ∧ v.publishedAt ≠ "" then
      { v.version with publishedAt := v.publishedAt }
    else v.version)

/-- The raw version strings gathered by the same loop. -/
def convertRaw (entries : List APIVersionEntry) : List String :=
  entries.map (fun v => v.version.version)

/-- Calculator.calculateComponentLag with the registry call abstracted
into a fixed fetch mapping (none models every failure of
deps.Client.GetVersions); the error messages are irrelevant to the
claims, so failures collapse to none. -/
def calculateComponentLag (fetch : String → Option APIResponse)
    (component : Component) : Option TechnicalLag :=
  if component.packageURL = "" then none
  else if component.version = "" then none
  else
    match fetch component.packageURL with
    | none => none
    | some depsResp =>
      if depsResp.versions.length = 0 then none
      else
        match getLibyear component.version
            (convertVersions depsResp.versions) with
        | .error _ => none
        | .ok dur =>
          match getVersionDistance component.version
              (convertRaw depsResp.versions) with
          | .error _ => none
          | .ok vd => some ⟨(dur : ℚ) / 86400, vd⟩

/-- Calculator.Calculate, draining the worker results in job order:
components whose job failed are omitted; the batch fails only when the
components collection is nil. -/
def calculatorCalculate (fetch : String → Option APIResponse) (bom : BOM) :
    Except String (List (Component × TechnicalLag)) :=
  match bom.components with
  | none => .error "no components found in SBOM"
  | some components =>
    .ok (components.filterMap (fun c =>
      (calculateComponentLag fetch c).map (fun lag => (c, lag))))

/-- Calculator.Calculate with an explicit completion order: the worker
pool completes jobs in an arbitrary order, modelled by a permutation of
the component list supplied by the caller. -/
def calculatorCalculateSched (fetch : String → Option APIResponse)
    (bom : BOM) (order : List Component) :
    Except String (List (Component × TechnicalLag)) :=
  match bom.components with
  | none => .error "no components found in SBOM"
  | some _ =>
    .ok (order.filterMap (fun c =>
      (calculateComponentLag fetch c).map (fun lag => (c, lag))))

/-- The per-component body of the sequential libyear.Calculate:
fetch, convert, GetLibyear, GetVersionDistance; any failure skips the
component. -/
def libyearJob (fetch : String → Option APIResponse) (c : Component) :
    Option TechnicalLag :=
  match fetch c.packageURL with
  | none => none
  | some depsRes =>
    match getLibyear c.version (convertVersions depsRes.versions) with
    | .error _ => none
    | .ok dur =>
      match getVersionDistance c.version (convertRaw depsRes.versions) with
      | .error _ => none
      | .ok vd => some ⟨(dur : ℚ) / 86400, vd⟩

/-- libyear.Calculate, the sequential reference implementation.  Go
dereferences a nil components pointer (a panic); the embedding reports
it as an error, which the refinement claim's hypothesis excludes. -/
def libyearCalculate (fetch : String → Option APIResponse) (bom : BOM) :
    Except String (List (Component × TechnicalLag)) :=
  match bom.components with
  | none => .error "nil components dereference"
  | some components =>
    .ok (components.filterMap (fun c =>
      (libyearJob fetch c).map (fun lag => (c, lag))))

/-- Lookup in the result association (the Go map keyed by the component
value; every entry for the same key carries the same deterministic job
result, so the first match is the map's value). -/
def resLookup (results : List (Component × TechnicalLag)) (c : Component) :
    Option TechnicalLag :=
  (results.find? (fun p => p.1 == c)).map (fun p => p.2)

/-- The direct-dependency Libdays sum of
technicalLag.CalculateCriticalityScore (dependencies absent from the
metrics map contribute nothing). -/
def sumDirectLibdays (metrics : Component → Option TechnicalLag)
    (deps : List Component) : ℚ :=
  deps.foldl (fun acc dep =>
    match metrics dep with
    | some m => acc + m.libdays
    | none => acc) 0

/-- technicalLag.CalculateCriticalityScore. -/
def calculateCriticalityScore (component : Component) (bom : BOM)
    (metrics : Component → Option TechnicalLag)
    (totalScopeLibyears : ℚ) : ℚ :=
  if totalScopeLibyears = 0 then 0
  else
    match getDirectDependenciesOf bom component.bomRef with
    | .error _ => 0
    | .ok directDeps => sumDirectLibdays metrics directDeps / totalScopeLibyears

/-! ## internal/technicalLag/hotpaths.go -/

/-- technicalLag.ComponentLag in the per-component form hotpaths.go
consumes (plain metric fields). -/
structure ComponentLag where
  component : Component
  libdays : ℚ
  missedReleases : Int
  missedMajor : Int
  missedMinor : Int
  missedPatch : Int
  deriving DecidableEq, Repr

/-- technicalLag.TechLagStats restricted to the fields hotpaths.go
reads: the scope totals and the component list. -/
structure TechLagStats where
  libdays : ℚ
  missedReleases : Int
  numComponents : Nat
  components : List ComponentLag
  deriving DecidableEq, Repr

/-- technicalLag.HotPathComponent. -/
structure HotPathComponent where
  component : Component
  contribution : ℚ
  percentageOfTotal : ℚ
  cumulativePercent : ℚ
  deriving DecidableEq, Repr

/-- technicalLag.HotPath. -/
structure HotPath where
  metric : String
  scope : String
  totalLag : ℚ
  hotPathThreshold : ℚ
  hotPathComponents : List HotPathComponent
  topContributors : List HotPathComponent
  numHotPathComponents : Nat
  hotPathCoverage : ℚ
  deriving DecidableEq, Repr

/-- Three-way comparison of rationals. -/
def cmpQ (a b : ℚ) : Ordering :=
  if a < b then .lt else if b < a then .gt else .eq

/-- The descending-contribution comparator of the sort.Slice calls in
hotpaths.go. -/
def cmpContrib (a b : HotPathComponent) : Ordering :=
  cmpQ b.contribution a.contribution

/-- Contribution sum over hot-path components. -/
def sumContrib (l : List HotPathComponent) : ℚ :=
  l.foldl (fun acc c => acc + c.contribution) 0

/-- The identity of a hot-path entry disregarding the
cumulative-percent field mutated during the walk. -/
def hpKey (c : HotPathComponent) : Component × ℚ :=
  (c.component, c.contribution)

/-- The accumulation loop shared verbatim by analyzeLibyearsHotPath and
analyzeVersionDistanceHotPath: append each walked component with its
cumulative percentage and stop as soon as the accumulated contribution
reaches the threshold. -/
def hotPathWalk (total threshold : ℚ) (cum : ℚ) :
    List HotPathComponent → List HotPathComponent
  | [] => []
  | c :: rest =>
    if threshold ≤ cum + c.contribution then
      [{ c with cumulativePercent := (cum + c.contribution) / total * 100 }]
    else
      { c with cumulativePercent := (cum + c.contribution) / total * 100 } ::
        hotPathWalk total threshold (cum + c.contribution) rest

/-- The positive-contribution entries of a libyears bucket, in
encounter order (rational division by a zero total yields 0 here,
where Go would produce an infinite percentage; consistent buckets
never divide by zero). -/
def libyearContributors (stats : TechLagStats) : List HotPathComponent :=
  stats.components.filterMap (fun comp =>
    if 0 < comp.libdays then
      some ⟨comp.component, comp.libdays, comp.libdays / stats.libdays * 100, 0⟩
    else none)

/-- The contribution-sorted libyears contributors. -/
def libyearSorted (stats : TechLagStats) : List HotPathComponent :=
  sortCmp cmpContrib (libyearContributors stats)

/-- The libyears hot path of a bucket (threshold 0.5 × total, as
hardcoded in hotpaths.go). -/
def libyearHot (stats : TechLagStats) : List HotPathComponent :=
  hotPathWalk stats.libdays (stats.libdays * (1 / 2)) 0 (libyearSorted stats)

/-- technicalLag.analyzeLibyearsHotPath. -/
def analyzeLibyearsHotPath (stats : TechLagStats) (scope : String) : HotPath :=
  { metric := "libyears"
    scope := scope
    totalLag := stats.libdays
    hotPathThreshold := stats.libdays * (1 / 2)
    hotPathComponents := libyearHot stats
    topContributors := (libyearSorted stats).take 10
    numHotPathComponents := (libyearHot stats).length
    hotPathCoverage :=
      if libyearHot stats = [] then 0
      else sumContrib (libyearHot stats) / stats.libdays * 100 }

/-- The positive-contribution entries of a version-distance bucket. -/
def vdContributors (stats : TechLagStats) : List HotPathComponent :=
  stats.components.filterMap (fun comp =>
    if 0 < comp.missedReleases then
      some ⟨comp.component, (comp.missedReleases : ℚ),
        (comp.missedReleases : ℚ) / (stats.missedReleases : ℚ) * 100, 0⟩
    else none)

/-- The contribution-sorted version-distance contributors. -/
def vdSorted (stats : TechLagStats) : List HotPathComponent :=
  sortCmp cmpContrib (vdContributors stats)

/-- The version-distance hot path of a bucket. -/
def vdHot (stats : TechLagStats) : List HotPathComponent :=
  hotPathWalk (stats.missedReleases : ℚ) ((stats.missedReleases : ℚ) * (1 / 2))
    0 (vdSorted stats)

/-- technicalLag.analyzeVersionDistanceHotPath. -/
def analyzeVersionDistanceHotPath (stats : TechLagStats) (scope : String) :
    HotPath :=
  { metric := "versionDistance"
    scope := scope
    totalLag := (stats.missedReleases : ℚ)
    hotPathThreshold := (stats.missedReleases : ℚ) * (1 / 2)
    hotPathComponents := vdHot stats
    topContributors := (vdSorted stats).take 10
    numHotPathComponents := (vdHot stats).length
    hotPathCoverage :=
      if vdHot stats = [] then 0
      else sumContrib (vdHot stats) / (stats.missedReleases : ℚ) * 100 }

/-- The bucket's own Libdays sum, for stating bucket consistency. -/
def statsLibSum (stats : TechLagStats) : ℚ :=
  (stats.components.map (fun cl => cl.libdays)).sum

/-- The bucket's own missed-release sum. -/
def statsMissedSum (stats : TechLagStats) : Int :=
  (stats.components.map (fun cl => cl.missedReleases)).sum

/-! ### Facts about the distance computation -/

/-- The classification loop assigns every walked element to exactly one
bucket, and the buckets are non-negative. -/
theorem walkCounts_spec (l : List GoVersion) :
    ∀ prev, (walkCounts prev l).1 + (walkCounts prev l).2.1 +
        (walkCounts prev l).2.2 = (l.length : Int) ∧
      0 ≤ (walkCounts prev l).1 ∧ 0 ≤ (walkCounts prev l).2.1 ∧
      0 ≤ (walkCounts prev l).2.2 := by
  induction l with
  | nil => intro prev; simp [walkCounts]
  | cons v vs ih =>
    intro prev
    have h := ih (normalizeSegments v.segments)
    simp only [walkCounts, List.length_cons]
    split <;> [skip; split <;> [skip; split]] <;>
      · push_cast
        omega

/-- findVersionIndex never exceeds the list length. -/
theorem findVersionIndex_le (sorted : List GoVersion) (used : GoVersion) :
    findVersionIndex sorted used ≤ sorted.length := by
  induction sorted with
  | nil => simp [findVersionIndex]
  | cons h t ih =>
    simp only [findVersionIndex, List.length_cons]
    split
    · omega
    · omega

/-- After insertVersionIfMissing the used index points inside the
returned slice. -/
theorem insertVersionIfMissing_lt (sorted : List GoVersion)
    (used : GoVersion) (index : Nat) (hle : index ≤ sorted.length) :
    (insertVersionIfMissing sorted used index).2 <
      (insertVersionIfMissing sorted used index).1.length := by
  unfold insertVersionIfMissing
  split
  · simp
    omega
  · split
    · simp
      omega
    · simp only [List.length_append, List.length_take, List.length_cons,
        List.length_drop]
      omega

/-- calculateVersionDistance satisfies the sum invariant and
non-negativity whenever the used index lies inside the slice. -/
theorem calculateVersionDistance_spec (sorted : List GoVersion)
    (usedIndex : Nat) (used : GoVersion) (h : usedIndex < sorted.length) :
    (calculateVersionDistance sorted usedIndex used).missedMajor +
        (calculateVersionDistance sorted usedIndex used).missedMinor +
        (calculateVersionDistance sorted usedIndex used).missedPatch =
      (calculateVersionDistance sorted usedIndex used).missedReleases ∧
    0 ≤ (calculateVersionDistance sorted usedIndex used).missedReleases ∧
    0 ≤ (calculateVersionDistance sorted usedIndex used).missedMajor ∧
    0 ≤ (calculateVersionDistance sorted usedIndex used).missedMinor ∧
    0 ≤ (calculateVersionDistance sorted usedIndex used).missedPatch := by
  have hw := walkCounts_spec (sorted.drop (usedIndex + 1))
    (normalizeSegments used.segments)
  have hlen : (sorted.drop (usedIndex + 1)).length =
      sorted.length - (usedIndex + 1) := List.length_drop _ _
  rw [hlen] at hw
  unfold calculateVersionDistance
  split
  · simp
  · rename_i hpos
    split
    · rename_i hneq
      exfalso
      apply hneq
      omega
    · dsimp only
      refine ⟨?_, ?_, ?_, ?_, ?_⟩ <;> omega

/-- Claim C1: whenever GetVersionDistance returns a VersionDistance
without error, the category counts sum to the total missed releases and
all four fields are non-negative. -/
theorem c1_version_distance_invariant (usedVersion : String)
    (versions : List String) (d : VersionDistance)
    (h : getVersionDistance usedVersion versions = .ok d) :
    d.missedMajor + d.missedMinor + d.missedPatch = d.missedReleases ∧
    0 ≤ d.missedReleases ∧ 0 ≤ d.missedMajor ∧ 0 ≤ d.missedMinor ∧
    0 ≤ d.missedPatch := by
  unfold getVersionDistance at h
  split at h
  · exact absurd h (by simp)
  · rename_i hne
    cases hp : parseSemver usedVersion with
    | error e => rw [hp] at h; exact absurd h (by simp)
    | ok used =>
      rw [hp] at h
      cases hf : parseAndFilterVersions versions with
      | error e => rw [hf] at h; exact absurd h (by simp)
      | ok sorted =>
        rw [hf] at h
        simp only [Except.ok.injEq] at h
        subst h
        exact calculateVersionDistance_spec _ _ _
          (insertVersionIfMissing_lt sorted used _
            (findVersionIndex_le sorted used))

/-- Witness for C1 at a concrete input. -/
theorem c1_version_distance_invariant_witness :
    getVersionDistance "1.0.0" ["1.0.1", "0.1.0", "2.0.3"] =
      .ok ⟨2, 1, 0, 1⟩ ∧
    (2 : Int) = 1 + 0 + 1 := by
  constructor
  · rfl
  · have h := c1_version_distance_invariant "1.0.0"
      ["1.0.1", "0.1.0", "2.0.3"] ⟨2, 1, 0, 1⟩ (by rfl)
    omega

/-! ### Comparator order theory -/

theorem ordering_swap_swap (o : Ordering) : o.swap.swap = o := by
  cases o <;> rfl

theorem cmpInt_swap (a b : Int) : (cmpInt a b).swap = cmpInt b a := by
  unfold cmpInt
  rcases lt_trichotomy a b with h | h | h
  · simp [h, not_lt_of_gt h, Ordering.swap]
  · simp [h, lt_irrefl, Ordering.swap]
  · simp [h, not_lt_of_gt h, Ordering.swap]

theorem cmpInt_eq_iff (a b : Int) : cmpInt a b = .eq ↔ a = b := by
  unfold cmpInt
  rcases lt_trichotomy a b with h | h | h
  · simp [h, ne_of_lt h]
  · simp [h, lt_irrefl]
  · simp [not_lt_of_gt h, h, ne_of_gt h]

theorem cmpInt_lt_iff (a b : Int) : cmpInt a b = .lt ↔ a < b := by
  unfold cmpInt
  rcases lt_trichotomy a b with h | h | h
  · simp [h]
  · simp [h, lt_irrefl]
  · simp [not_lt_of_gt h, h]

theorem cmpInt_lt_trans (a b c : Int) (h1 : cmpInt a b = .lt)
    (h2 : cmpInt b c = .lt) : cmpInt a c = .lt := by
  rw [cmpInt_lt_iff] at h1 h2 ⊢
  exact lt_trans h1 h2

theorem cmpSegs_nil_right (b : List Int) : cmpSegs b [] = cmpTailZero b := by
  induction b with
  | nil => rfl
  | cons x xs ih =>
    show (match cmpInt x 0 with
      | .eq => cmpSegs xs []
      | o => o) = _
    rw [ih]
    rfl

theorem cmpSegs_unfold (a b : List Int) :
    cmpSegs a b =
      match cmpInt (hdI a) (hdI b) with
      | .eq => cmpSegs (tlI a) (tlI b)
      | o => o := by
  cases a with
  | nil =>
    cases b with
    | nil => rfl
    | cons y ys =>
      show (cmpTailZero (y :: ys)).swap = _
      show (match cmpInt y 0 with
        | .eq => cmpTailZero ys
        | o => o).swap = _
      have hsw : cmpInt 0 y = (cmpInt y 0).swap := (cmpInt_swap y 0).symm
      simp only [hdI, tlI, hsw]
      cases cmpInt y 0 with
      | lt => rfl
      | eq =>
        show (cmpTailZero ys).swap = cmpSegs [] ys
        rfl
      | gt => rfl
  | cons x xs =>
    cases b with
    | nil => rfl
    | cons y ys => rfl

theorem cmpSegs_swap (a b : List Int) : (cmpSegs a b).swap = cmpSegs b a := by
  induction a generalizing b with
  | nil =>
    show ((cmpTailZero b).swap).swap = cmpSegs b []
    rw [ordering_swap_swap, cmpSegs_nil_right]
  | cons x xs ih =>
    cases b with
    | nil =>
      show (cmpSegs (x :: xs) []).swap = (cmpTailZero (x :: xs)).swap
      rw [cmpSegs_nil_right]
    | cons y ys =>
      show (match cmpInt x y with
        | .eq => cmpSegs xs ys
        | o => o).swap = (match cmpInt y x with
        | .eq => cmpSegs ys xs
        | o => o)
      have hsw : cmpInt y x = (cmpInt x y).swap := (cmpInt_swap x y).symm
      rw [hsw]
      cases cmpInt x y with
      | lt => rfl
      | eq => exact ih ys
      | gt => rfl

theorem tlI_length (l : List Int) : (tlI l).length = l.length - 1 := by
  cases l <;> simp [tlI]

theorem cmpSegs_eq_congr (a b c : List Int) (h : cmpSegs a b = .eq) :
    cmpSegs a c = cmpSegs b c := by
  have key : ∀ n a b c, a.length + b.length + c.length ≤ n →
      cmpSegs a b = .eq → cmpSegs a c = cmpSegs b c := by
    intro n
    induction n with
    | zero =>
      intro a b c hlen _
      have ha : a = [] := by cases a <;> simp_all
      have hb : b = [] := by cases b <;> simp_all
      subst ha hb
      rfl
    | succ n ih =>
      intro a b c hlen h
      rw [cmpSegs_unfold a b] at h
      rw [cmpSegs_unfold a c, cmpSegs_unfold b c]
      cases hab : cmpInt (hdI a) (hdI b) <;> rw [hab] at h
      · exact absurd h (by simp)
      · have hxy : hdI a = hdI b := (cmpInt_eq_iff _ _).mp hab
        rw [hxy]
        cases hbc : cmpInt (hdI b) (hdI c)
        · rfl
        · have htails : cmpSegs (tlI a) (tlI c) = cmpSegs (tlI b) (tlI c) := by
            apply ih _ _ _ _ h
            rw [tlI_length, tlI_length, tlI_length]
            omega
          simp only [htails]
        · rfl
      · exact absurd h (by simp)
  exact key (a.length + b.length + c.length) a b c (le_refl _) h

theorem cmpSegs_lt_trans (a b c : List Int) (h1 : cmpSegs a b = .lt)
    (h2 : cmpSegs b c = .lt) : cmpSegs a c = .lt := by
  have key : ∀ n a b c, a.length + b.length + c.length ≤ n →
      cmpSegs a b = .lt → cmpSegs b c = .lt → cmpSegs a c = .lt := by
    intro n
    induction n with
    | zero =>
      intro a b c hlen h1 _
      have ha : a = [] := by cases a <;> simp_all
      have hb : b = [] := by cases b <;> simp_all
      subst ha hb
      exact absurd h1 (by decide)
    | succ n ih =>
      intro a b c hlen h1 h2
      rw [cmpSegs_unfold a b] at h1
      rw [cmpSegs_unfold b c] at h2
      rw [cmpSegs_unfold a c]
      cases hab : cmpInt (hdI a) (hdI b) <;> rw [hab] at h1
      · cases hbc : cmpInt (hdI b) (hdI c) <;> rw [hbc] at h2
        · rw [cmpInt_lt_trans _ _ _ hab hbc]
        · have hxy : hdI b = hdI c := (cmpInt_eq_iff _ _).mp hbc
          rw [← hxy, hab]
        · exact absurd h2 (by simp)
      · have hxy : hdI a = hdI b := (cmpInt_eq_iff _ _).mp hab
        cases hbc : cmpInt (hdI b) (hdI c) <;> rw [hbc] at h2
        · rw [hxy, hbc]
        · rw [hxy, hbc]
          apply ih _ _ _ _ h1 h2
          rw [tlI_length, tlI_length, tlI_length]
          omega
        · exact absurd h2 (by simp)
      · exact absurd h1 (by simp)
  exact key (a.length + b.length + c.length) a b c (le_refl _) h1 h2

theorem cmpPre_swap (a b : String) : (cmpPre a b).swap = cmpPre b a := by
  unfold cmpPre
  by_cases hab : a = b
  · simp [hab, Ordering.swap]
  · have hba : ¬ b = a := fun h => hab h.symm
    by_cases ha : a = ""
    · have hb : ¬ b = "" := fun h => hab (by rw [ha, h])
      subst ha
      simp [hab, hba, hb, Ordering.swap]
    · by_cases hb : b = ""
      · subst hb
        simp [hab, hba, ha, Ordering.swap]
      · rcases lt_trichotomy a b with h | h | h
        · simp [hab, hba, ha, hb, h, not_lt_of_gt h, Ordering.swap]
        · exact absurd h hab
        · simp [hab, hba, ha, hb, h, not_lt_of_gt h, Ordering.swap]

theorem cmpPre_eq_iff (a b : String) : cmpPre a b = .eq ↔ a = b := by
  unfold cmpPre
  split
  · simp_all
  · split
    · simp_all
    · split
      · simp_all
      · split <;> simp_all

theorem cmpPre_lt_trans (a b c : String) (h1 : cmpPre a b = .lt)
    (h2 : cmpPre b c = .lt) : cmpPre a c = .lt := by
  unfold cmpPre at h1 h2 ⊢
  by_cases hab : a = b
  · rw [if_pos hab] at h1
    exact absurd h1 (by simp)
  · rw [if_neg hab] at h1
    by_cases ha : a = ""
    · rw [if_pos ha] at h1
      exact absurd h1 (by simp)
    · rw [if_neg ha] at h1
      by_cases hbc : b = c
      · rw [if_pos hbc] at h2
        exact absurd h2 (by simp)
      · rw [if_neg hbc] at h2
        by_cases hb : b = ""
        · rw [if_pos hb] at h2
          exact absurd h2 (by simp)
        · rw [if_neg hb] at h2
          rw [if_neg hb] at h1
          have hal : a < b := by
            by_cases h : a < b
            · exact h
            · rw [if_neg h] at h1
              exact absurd h1 (by simp)
          by_cases hc : c = ""
          · have hac : ¬ a = c := fun h => ha (h.trans hc)
            rw [if_neg hac, if_neg ha, if_pos hc]
          · rw [if_neg hc] at h2
            have hbl : b < c := by
              by_cases h : b < c
              · exact h
              · rw [if_neg h] at h2
                exact absurd h2 (by simp)
            have hacl : a < c := lt_trans hal hbl
            rw [if_neg (ne_of_lt hacl), if_neg ha, if_neg hc, if_pos hacl]

theorem goCompare_laws : CmpLaws goCompare := by
  constructor
  · intro a b
    unfold goCompare
    have hs : cmpSegs b.segments a.segments =
        (cmpSegs a.segments b.segments).swap := (cmpSegs_swap _ _).symm
    rw [hs]
    cases cmpSegs a.segments b.segments with
    | lt => rfl
    | eq => exact cmpPre_swap _ _
    | gt => rfl
  · intro a b c h1 h2
    unfold goCompare at h1 h2 ⊢
    cases hab : cmpSegs a.segments b.segments <;> rw [hab] at h1
    · cases hbc : cmpSegs b.segments c.segments <;> rw [hbc] at h2
      · rw [cmpSegs_lt_trans _ _ _ hab hbc]
      · have h3 : cmpSegs b.segments a.segments =
            cmpSegs c.segments a.segments := cmpSegs_eq_congr _ _ _ hbc
        have hba : cmpSegs b.segments a.segments = .gt := by
          have hs := cmpSegs_swap a.segments b.segments
          rw [hab] at hs
          exact hs.symm
        have hca : cmpSegs c.segments a.segments = .gt := h3 ▸ hba
        have hac : cmpSegs a.segments c.segments = .lt := by
          have hs := cmpSegs_swap c.segments a.segments
          rw [hca] at hs
          exact hs.symm
        rw [hac]
      · exact absurd h2 (by simp)
    · have hcong := cmpSegs_eq_congr _ _ c.segments hab
      cases hbc : cmpSegs b.segments c.segments <;> rw [hbc] at h2
      · rw [hcong, hbc]
      · rw [hcong, hbc]
        exact cmpPre_lt_trans _ _ _ h1 h2
      · exact absurd h2 (by simp)
    · exact absurd h1 (by simp)
  · intro a b c h
    unfold goCompare at h ⊢
    cases hab : cmpSegs a.segments b.segments <;> rw [hab] at h
    · exact absurd h (by simp)
    · have hpre : a.prerelease = b.prerelease := (cmpPre_eq_iff _ _).mp h
      have hcong := cmpSegs_eq_congr _ _ c.segments hab
      rw [hcong, hpre]
    · exact absurd h (by simp)

/-! ### Generic sorting facts -/

theorem cmpLaws_le_total {cmp : α → α → Ordering} (laws : CmpLaws cmp)
    (a b : α) (h : ¬ cmpLe cmp a b) : cmpLe cmp b a := by
  unfold cmpLe at h ⊢
  rw [not_not] at h
  intro hba
  have := laws.swap a b
  rw [h] at this
  rw [← this] at hba
  exact absurd hba (by simp [Ordering.swap])

theorem cmpLaws_le_trans {cmp : α → α → Ordering} (laws : CmpLaws cmp)
    (a b c : α) (h1 : cmpLe cmp a b) (h2 : cmpLe cmp b c) : cmpLe cmp a c := by
  unfold cmpLe at h1 h2 ⊢
  cases hab : cmp a b
  · cases hbc : cmp b c
    · rw [laws.lt_trans a b c hab hbc]
      simp
    · have hcb : cmp c b = .eq := by
        have hs := laws.swap b c
        rw [hbc] at hs
        exact hs.symm
      have h3 : cmp c a = cmp b a := laws.eq_congr c b a hcb
      have hba : cmp b a = .gt := by
        have hs := laws.swap a b
        rw [hab] at hs
        exact hs.symm
      have hca : cmp c a = .gt := by rw [h3, hba]
      have hac : cmp a c = .lt := by
        have hs := laws.swap c a
        rw [hca] at hs
        exact hs.symm
      rw [hac]
      simp
    · exact absurd hbc h2
  · have h3 := laws.eq_congr a b c hab
    rw [h3]
    exact h2
  · exact absurd hab h1

theorem insertCmp_perm (cmp : α → α → Ordering) (g : α) (l : List α) :
    List.Perm (insertCmp cmp g l) (g :: l) := by
  induction l with
  | nil => rfl
  | cons h t ih =>
    unfold insertCmp
    split
    · exact (ih.cons h).trans (List.Perm.swap g h t)
    · rfl

theorem sortCmp_perm (cmp : α → α → Ordering) (l : List α) :
    List.Perm (sortCmp cmp l) l := by
  induction l with
  | nil => rfl
  | cons h t ih =>
    show List.Perm (insertCmp cmp h (sortCmp cmp t)) (h :: t)
    exact (insertCmp_perm cmp h (sortCmp cmp t)).trans (ih.cons h)

theorem insertCmp_pairwise {cmp : α → α → Ordering} (laws : CmpLaws cmp)
    (g : α) (l : List α) (h : l.Pairwise (cmpLe cmp)) :
    (insertCmp cmp g l).Pairwise (cmpLe cmp) := by
  induction l with
  | nil => simp [insertCmp]
  | cons x t ih =>
    rcases List.pairwise_cons.mp h with ⟨hx, ht⟩
    unfold insertCmp
    split
    · rename_i hgt
      refine List.pairwise_cons.mpr ⟨?_, ih ht⟩
      intro y hy
      rcases List.mem_cons.mp ((insertCmp_perm cmp g t).mem_iff.mp hy) with
        hyg | hyt
      · subst hyg
        have hsw := laws.swap y x
        rw [hgt] at hsw
        intro hc
        rw [hc] at hsw
        simp [Ordering.swap] at hsw
      · exact hx y hyt
    · rename_i hngt
      refine List.pairwise_cons.mpr ⟨?_, h⟩
      intro y hy
      rcases List.mem_cons.mp hy with hyx | hyt
      · subst hyx
        exact hngt
      · exact cmpLaws_le_trans laws g x y hngt (hx y hyt)

theorem sortCmp_pairwise {cmp : α → α → Ordering} (laws : CmpLaws cmp)
    (l : List α) : (sortCmp cmp l).Pairwise (cmpLe cmp) := by
  induction l with
  | nil => simp [sortCmp]
  | cons h t ih => exact insertCmp_pairwise laws h (sortCmp cmp t) ih

/-! ### The libyear computation (claim C2) -/

theorem cmpLaws_le_refl {cmp : α → α → Ordering} (laws : CmpLaws cmp)
    (a : α) : cmpLe cmp a a := by
  have hs := laws.swap a a
  unfold cmpLe
  intro hgt
  rw [hgt] at hs
  simp [Ordering.swap] at hs

theorem depLaws : CmpLaws cmpDeps := by
  constructor
  · intro a b
    unfold cmpDeps
    cases ha : parseGoVersion a.version <;> cases hb : parseGoVersion b.version
    · rfl
    · rfl
    · rfl
    · exact goCompare_laws.swap _ _
  · intro a b c h1 h2
    unfold cmpDeps at h1 h2 ⊢
    cases ha : parseGoVersion a.version <;>
      cases hb : parseGoVersion b.version <;>
      cases hc : parseGoVersion c.version <;>
      (try simp only [ha, hb, hc] at h1 h2 ⊢) <;>
      first
        | rfl
        | exact absurd h1 (by decide)
        | exact absurd h2 (by decide)
        | exact h1
        | exact goCompare_laws.lt_trans _ _ _ h1 h2
  · intro a b c h
    unfold cmpDeps at h ⊢
    cases ha : parseGoVersion a.version <;>
      cases hb : parseGoVersion b.version <;>
      cases hc : parseGoVersion c.version <;>
      (try simp only [ha, hb, hc] at h ⊢) <;>
      first
        | rfl
        | exact absurd h (by decide)
        | exact goCompare_laws.eq_congr _ _ _ h

theorem getD_mem (l : List α) (i : Nat) (d : α) (h : i < l.length) :
    l.getD i d ∈ l := by
  induction l generalizing i with
  | nil => simp at h
  | cons x t ih =>
    cases i with
    | zero => simp [List.getD]
    | succ j =>
      simp only [List.getD_cons_succ]
      exact List.mem_cons_of_mem x (ih j (by simpa using h))

theorem pairwise_le_last {cmp : α → α → Ordering} (laws : CmpLaws cmp)
    (l : List α) (d : α) (hp : l.Pairwise (cmpLe cmp)) :
    ∀ x ∈ l, cmpLe cmp x (l.getD (l.length - 1) d) := by
  induction l with
  | nil => intro x hx; simp at hx
  | cons a rest ih =>
    rcases List.pairwise_cons.mp hp with ⟨ha, hrest⟩
    intro x hx
    cases rest with
    | nil =>
      rcases List.mem_singleton.mp hx with rfl
      exact cmpLaws_le_refl laws x
    | cons b t =>
      have hlast : ((a :: b :: t).getD ((a :: b :: t).length - 1) d) =
          ((b :: t).getD ((b :: t).length - 1) d) := by
        simp [List.getD_cons_succ, List.length_cons]
      rw [hlast]
      rcases List.mem_cons.mp hx with rfl | hx2
      · exact ha _ (getD_mem _ _ _ (by simp))
      · exact ih hrest x hx2

theorem findUsedVersionIndex_lt (sorted : List DepsVersion) (u : GoVersion)
    (i : Nat) (h : findUsedVersionIndex sorted u = some i) :
    i < sorted.length := by
  induction sorted generalizing i with
  | nil => simp [findUsedVersionIndex] at h
  | cons v vs ih =>
    unfold findUsedVersionIndex at h
    by_cases hm : matchesUsed u v = true
    · rw [if_pos hm] at h
      obtain rfl : (0 : Nat) = i := Option.some.inj h
      simp
    · rw [if_neg hm] at h
      rcases Option.map_eq_some'.mp h with ⟨j, hj, rfl⟩
      exact Nat.succ_lt_succ (ih j hj)

theorem findUsedVersionIndex_spec (sorted : List DepsVersion) (u : GoVersion)
    (i : Nat) (d : DepsVersion) (h : findUsedVersionIndex sorted u = some i) :
    ∃ sv, parseGoVersion (sorted.getD i d).version = some sv ∧
      eqGo sv u = true := by
  induction sorted generalizing i with
  | nil => simp [findUsedVersionIndex] at h
  | cons v vs ih =>
    unfold findUsedVersionIndex at h
    by_cases hm : matchesUsed u v = true
    · rw [if_pos hm] at h
      obtain rfl : (0 : Nat) = i := Option.some.inj h
      unfold matchesUsed at hm
      cases hv : parseGoVersion v.version <;> rw [hv] at hm
      · exact absurd hm (by simp)
      · rename_i sv
        exact ⟨sv, by simpa [List.getD] using hv, hm⟩
    · rw [if_neg hm] at h
      rcases Option.map_eq_some'.mp h with ⟨j, hj, rfl⟩
      simpa [List.getD_cons_succ] using ih j hj

theorem clamp_eq_max (x : Int) : (if x < 0 then (0 : Int) else x) = max x 0 := by
  rcases le_or_lt 0 x with h | h
  · rw [if_neg (not_lt_of_ge h), max_eq_left h]
  · rw [if_pos h, max_eq_right (le_of_lt h)]

/-- Claim C2 (amended): whenever GetLibyear succeeds, the returned
duration is the publication time of a semantically maximal filtered
candidate minus the publication time of the filtered candidate that is
semantically Equal to the used version, clamped at zero.  (The original
claim — the maximum publication time over the filtered candidates —
does not hold; see the counterexample.) -/
theorem c2_libyear_amended (usedVersion : String) (versions : List DepsVersion)
    (dur : Int) (h : getLibyear usedVersion versions = .ok dur) :
    ∃ m u tm tu,
      m ∈ versions.filter validVersion ∧
      u ∈ versions.filter validVersion ∧
      (∀ v ∈ versions.filter validVersion, cmpLe cmpDeps v m) ∧
      versionTime m = some tm ∧ versionTime u = some tu ∧
      (∃ usedSemver su, parseSemver usedVersion = .ok usedSemver ∧
        parseGoVersion u.version = some su ∧ eqGo su usedSemver = true) ∧
      dur = max (tm - tu) 0 := by
  unfold getLibyear at h
  split at h
  · exact absurd h (by simp)
  split at h
  · exact absurd h (by simp)
  rename_i usedSemver hp
  split at h
  · exact absurd h (by simp)
  rename_i valid hf
  split at h
  · exact absurd h (by simp)
  rename_i usedIdx hidx
  split at h
  · exact absurd h (by simp)
  rename_i tu htu
  split at h
  · exact absurd h (by simp)
  rename_i tm htm
  simp only [Except.ok.injEq] at h
  have hvalid : valid = versions.filter validVersion ∧ valid ≠ [] := by
    unfold filterValidVersions at hf
    split at hf
    · exact absurd hf (by simp)
    split at hf
    · exact absurd hf (by simp)
    rename_i hne
    simp only [Except.ok.injEq] at hf
    exact ⟨hf.symm, hf ▸ hne⟩
  have hperm : List.Perm (sortVersionsBySemanticVersion valid) valid :=
    sortCmp_perm cmpDeps valid
  have hpw := sortCmp_pairwise depLaws valid
  have hlen : (sortVersionsBySemanticVersion valid).length = valid.length :=
    hperm.length_eq
  have hvne : 0 < valid.length := by
    cases hv : valid with
    | nil => exact absurd hv hvalid.2
    | cons a t => simp
  refine ⟨(sortVersionsBySemanticVersion valid).getD
      ((sortVersionsBySemanticVersion valid).length - 1) default,
    (sortVersionsBySemanticVersion valid).getD usedIdx default,
    tm, tu, ?_, ?_, ?_, htm, htu, ?_, ?_⟩
  · rw [← hvalid.1]
    exact hperm.mem_iff.mp (getD_mem _ _ _ (by omega))
  · rw [← hvalid.1]
    exact hperm.mem_iff.mp (getD_mem _ _ _
      (findUsedVersionIndex_lt _ _ _ hidx))
  · intro v hv
    rw [← hvalid.1] at hv
    exact pairwise_le_last depLaws _ default hpw v (hperm.mem_iff.mpr hv)
  · rcases findUsedVersionIndex_spec _ _ _ default hidx with ⟨sv, hsv, heq⟩
    exact ⟨usedSemver, sv, hp, hsv, heq⟩
  · rw [← h, clamp_eq_max]

/-- Witness for C2 at the repository's own GetLibyear test input. -/
theorem c2_libyear_amended_witness :
    getLibyear "1.0.0"
      [⟨"0.9.0", "2020-06-15T10:30:00Z"⟩,
       ⟨"1.0.0", "2021-01-20T14:45:30Z"⟩,
       ⟨"1.1.0", "2021-08-05T09:15:45Z"⟩,
       ⟨"2.0.0", "2022-03-18T16:20:10Z"⟩] = .ok 36466480 ∧
    (∃ m u tm tu,
      m ∈ ([⟨"0.9.0", "2020-06-15T10:30:00Z"⟩,
        ⟨"1.0.0", "2021-01-20T14:45:30Z"⟩,
        ⟨"1.1.0", "2021-08-05T09:15:45Z"⟩,
        ⟨"2.0.0", "2022-03-18T16:20:10Z"⟩] : List DepsVersion).filter
          validVersion ∧
      u ∈ ([⟨"0.9.0", "2020-06-15T10:30:00Z"⟩,
        ⟨"1.0.0", "2021-01-20T14:45:30Z"⟩,
        ⟨"1.1.0", "2021-08-05T09:15:45Z"⟩,
        ⟨"2.0.0", "2022-03-18T16:20:10Z"⟩] : List DepsVersion).filter
          validVersion ∧
      (∀ v ∈ ([⟨"0.9.0", "2020-06-15T10:30:00Z"⟩,
        ⟨"1.0.0", "2021-01-20T14:45:30Z"⟩,
        ⟨"1.1.0", "2021-08-05T09:15:45Z"⟩,
        ⟨"2.0.0", "2022-03-18T16:20:10Z"⟩] : List DepsVersion).filter
          validVersion, cmpLe cmpDeps v m) ∧
      versionTime m = some tm ∧ versionTime u = some tu ∧
      (∃ usedSemver su, parseSemver "1.0.0" = .ok usedSemver ∧
        parseGoVersion u.version = some su ∧ eqGo su usedSemver = true) ∧
      (36466480 : Int) = max (tm - tu) 0) := by
  constructor
  · rfl
  · exact c2_libyear_amended "1.0.0" _ 36466480 rfl

/-- Counterexample to C2 as stated: with the used version published on
2020-01-01, a candidate 1.5.0 published on 2020-01-21 (the maximum
publication time, 1728000 seconds after the used version), and a
candidate 2.0.0 published on 2020-01-11, GetLibyear returns 864000
seconds — the publication time of the semantically newest candidate
2.0.0 minus the used version's — not max(publishedAt) − publishedAt
(used) = 1579564800 − 1577836800 = 1728000. -/
theorem c2_libyear_counterexample :
    getLibyear "1.0.0"
      [⟨"1.0.0", "2020-01-01T00:00:00Z"⟩,
       ⟨"1.5.0", "2020-01-21T00:00:00Z"⟩,
       ⟨"2.0.0", "2020-01-11T00:00:00Z"⟩] = .ok 864000 ∧
    versionTime ⟨"1.5.0", "2020-01-21T00:00:00Z"⟩ = some 1579564800 ∧
    versionTime ⟨"1.0.0", "2020-01-01T00:00:00Z"⟩ = some 1577836800 ∧
    validVersion ⟨"1.5.0", "2020-01-21T00:00:00Z"⟩ = true ∧
    (864000 : Int) ≠ 1579564800 - 1577836800 := by
  exact ⟨rfl, rfl, rfl, rfl, by decide⟩

/-! ### Version distance with the used version contained (claim C3) -/

theorem cmpSegs_refl (l : List Int) : cmpSegs l l = .eq := by
  induction l with
  | nil => rfl
  | cons x xs ih =>
    show (match cmpInt x x with
      | .eq => cmpSegs xs xs
      | o => o) = .eq
    rw [(cmpInt_eq_iff x x).mpr rfl, ih]

theorem goCompare_refl (a : GoVersion) : goCompare a a = .eq := by
  unfold goCompare
  rw [cmpSegs_refl]
  simp [cmpPre]

theorem cmp_gt_of_eq_of_lt {cmp : α → α → Ordering} (laws : CmpLaws cmp)
    {h g u : α} (he : cmp h u = .eq) (hl : cmp g u = .lt) :
    cmp h g = .gt := by
  have h1 : cmp h g = cmp u g := laws.eq_congr h u g he
  have h2 : cmp u g = .gt := by
    have hs := laws.swap g u
    rw [hl] at hs
    exact hs.symm
  rw [h1, h2]

theorem geGo_false_of_lt (a b : GoVersion) (h : goCompare a b = .lt) :
    ¬ (geGo a b = true) := by
  simp [geGo, h]

theorem geGo_true_of_eq (a b : GoVersion) (h : goCompare a b = .eq) :
    geGo a b = true := by
  simp [geGo, h]

theorem eqGo_true_iff (a b : GoVersion) :
    eqGo a b = true ↔ goCompare a b = .eq := by
  simp [eqGo]

/-- A kept candidate parses successfully and carries no prerelease. -/
theorem keepValid_parse (v : String) (g : GoVersion)
    (h : keepValid v = some g) :
    parseGoVersion v = some g ∧ g.prerelease = "" := by
  unfold keepValid at h
  split at h
  · exact absurd h (by simp)
  rename_i g2 hpv
  split at h
  · rename_i hpre
    obtain rfl : g2 = g := Option.some.inj h
    exact ⟨hpv, hpre⟩
  · exact absurd h (by simp)

/-- On a sorted list whose elements all compare below or equal to the
used version, with at most one equal element, the binary search lands
either past the end (no equal element) or on the final, equal
element. -/
theorem findVersionIndex_cases (U : GoVersion) (S : List GoVersion)
    (hpw : S.Pairwise (cmpLe goCompare))
    (hmem : ∀ g ∈ S, goCompare g U = .lt ∨ goCompare g U = .eq)
    (hcnt : S.countP (fun g => eqGo g U) ≤ 1) :
    (findVersionIndex S U = S.length ∧ ∀ g ∈ S, goCompare g U = .lt) ∨
    (0 < S.length ∧ findVersionIndex S U = S.length - 1 ∧
      goCompare (S.getD (S.length - 1) default) U = .eq) := by
  induction S with
  | nil => exact Or.inl ⟨rfl, by simp⟩
  | cons h t ih =>
    rcases List.pairwise_cons.mp hpw with ⟨hh, hpt⟩
    rcases hmem h (List.mem_cons_self h t) with hP | hQ
    · have hcnt' : t.countP (fun g => eqGo g U) ≤ 1 := by
        have := List.countP_cons (fun g => eqGo g U) h t
        omega
      rcases ih hpt (fun g hg => hmem g (List.mem_cons_of_mem h hg)) hcnt'
        with ⟨hfind, hall⟩ | ⟨hpos, hfind, hlast⟩
      · refine Or.inl ⟨?_, ?_⟩
        · unfold findVersionIndex
          rw [if_neg (geGo_false_of_lt h U hP)]
          rw [hfind]
          simp
        · intro g hg
          rcases List.mem_cons.mp hg with rfl | hg2
          · exact hP
          · exact hall g hg2
      · refine Or.inr ⟨by simp, ?_, ?_⟩
        · unfold findVersionIndex
          rw [if_neg (geGo_false_of_lt h U hP)]
          rw [hfind]
          simp only [Option.map_some', List.length_cons]
          omega
        · have hti : (h :: t).getD ((h :: t).length - 1) default =
              t.getD (t.length - 1) default := by
            cases t with
            | nil => exact absurd hpos (by simp)
            | cons b t2 => simp [List.getD_cons_succ]
          rw [hti]
          exact hlast
    · have ht : t = [] := by
        by_contra hne
        cases t with
        | nil => exact hne rfl
        | cons b t2 =>
          rcases hmem b (List.mem_cons_of_mem h (List.mem_cons_self b t2))
            with hbP | hbQ
          · have hgt : goCompare h b = .gt :=
              cmp_gt_of_eq_of_lt goCompare_laws hQ hbP
            exact absurd hgt (hh b (List.mem_cons_self b t2))
          · have h2c : 2 ≤ (h :: b :: t2).countP (fun g => eqGo g U) := by
              rw [List.countP_cons, List.countP_cons,
                if_pos ((eqGo_true_iff b U).mpr hbQ),
                if_pos ((eqGo_true_iff h U).mpr hQ)]
              omega
            omega
      subst ht
      refine Or.inr ⟨by simp, ?_, ?_⟩
      · unfold findVersionIndex
        rw [if_pos (geGo_true_of_eq h U hQ)]
        simp
      · simpa [List.getD] using hQ

/-- Every filtered candidate either lies strictly below the used
version or is exactly its parse (possible only for occurrences of the
used string itself). -/
theorem keepValid_mem_cases (usedVersion : String) (U : GoVersion)
    (hU : parseGoVersion usedVersion = some U) (versions : List String)
    (hsmaller : ∀ v ∈ versions, v ≠ usedVersion → ∀ gv gu,
      parseGoVersion v = some gv → parseGoVersion usedVersion = some gu →
      goCompare gv gu = .lt) :
    ∀ g ∈ versions.filterMap keepValid,
      goCompare g U = .lt ∨ goCompare g U = .eq := by
  intro g hg
  rcases List.mem_filterMap.mp hg with ⟨v, hv, hkeep⟩
  have hparse : parseGoVersion v = some g := (keepValid_parse v g hkeep).1
  by_cases hvu : v = usedVersion
  · subst hvu
    rw [hU] at hparse
    have : g = U := by injection hparse.symm
    subst this
    exact Or.inr (goCompare_refl g)
  · exact Or.inl (hsmaller v hv hvu g U hparse hU)

/-- The filtered candidates contain at most as many parses equal to the
used version as there are occurrences of the used string, provided all
other candidates are strictly smaller. -/
theorem keepValid_countP_le (usedVersion : String) (U : GoVersion)
    (hU : parseGoVersion usedVersion = some U) (versions : List String)
    (hsmaller : ∀ v ∈ versions, v ≠ usedVersion → ∀ gv gu,
      parseGoVersion v = some gv → parseGoVersion usedVersion = some gu →
      goCompare gv gu = .lt) :
    (versions.filterMap keepValid).countP (fun g => eqGo g U) ≤
      versions.count usedVersion := by
  induction versions with
  | nil => simp
  | cons v vs ih =>
    have hsm' : ∀ v' ∈ vs, v' ≠ usedVersion → ∀ gv gu,
        parseGoVersion v' = some gv → parseGoVersion usedVersion = some gu →
        goCompare gv gu = .lt :=
      fun v' hv' => hsmaller v' (List.mem_cons_of_mem v hv')
    have hrec := ih hsm'
    cases hkv : keepValid v with
    | none =>
      rw [List.filterMap_cons_none hkv, List.count_cons]
      split <;> omega
    | some g =>
      rcases keepValid_parse v g hkv with ⟨hparse, _⟩
      rw [List.filterMap_cons_some hkv, List.countP_cons, List.count_cons]
      by_cases hvu : v = usedVersion
      · subst hvu
        rw [if_pos (beq_self_eq_true v)]
        split <;> omega
      · have hlt : goCompare g U = .lt := hsmaller v (List.mem_cons_self v vs)
          hvu g U hparse hU
        have hne : ¬ (eqGo g U = true) := by
          simp [eqGo, hlt]
        rw [if_neg hne]
        split <;> omega

/-- Claim C3 (amended): for a candidate list that contains the used
version exactly once and whose every other candidate parses strictly
below the used version, a successful GetVersionDistance returns all
four counts zero.  (As originally stated — any list containing the
used version verbatim — the claim is false; see the
counterexample.) -/
theorem c3_version_distance_contained (usedVersion : String)
    (versions : List String) (d : VersionDistance)
    (hok : getVersionDistance usedVersion versions = .ok d)
    (hmem : usedVersion ∈ versions)
    (hcount : versions.count usedVersion = 1)
    (hsmaller : ∀ v ∈ versions, v ≠ usedVersion → ∀ gv gu,
      parseGoVersion v = some gv → parseGoVersion usedVersion = some gu →
      goCompare gv gu = .lt) :
    d = ⟨0, 0, 0, 0⟩ := by
  unfold getVersionDistance at hok
  split at hok
  · exact absurd hok (by simp)
  split at hok
  · exact absurd hok (by simp)
  rename_i U hp
  split at hok
  · exact absurd hok (by simp)
  rename_i sorted hf
  simp only [Except.ok.injEq] at hok
  have hU : parseGoVersion usedVersion = some U := by
    unfold parseSemver at hp
    split at hp
    · exact absurd hp (by simp)
    split at hp
    · rename_i g hg
      simp only [Except.ok.injEq] at hp
      rw [hg, hp]
    · exact absurd hp (by simp)
  have hsorted : sorted = sortGoVersions (versions.filterMap keepValid) := by
    unfold parseAndFilterVersions at hf
    split at hf
    · exact absurd hf (by simp)
    split at hf
    · exact absurd hf (by simp)
    simp only [Except.ok.injEq] at hf
    exact hf.symm
  have hperm : List.Perm sorted (versions.filterMap keepValid) := by
    rw [hsorted]
    exact sortCmp_perm goCompare _
  have hpw : sorted.Pairwise (cmpLe goCompare) := by
    rw [hsorted]
    exact sortCmp_pairwise goCompare_laws _
  have hmemS : ∀ g ∈ sorted, goCompare g U = .lt ∨ goCompare g U = .eq :=
    fun g hg => keepValid_mem_cases usedVersion U hU versions hsmaller g
      (hperm.mem_iff.mp hg)
  have hcntS : sorted.countP (fun g => eqGo g U) ≤ 1 := by
    rw [hperm.countP_eq]
    rw [← hcount]
    exact keepValid_countP_le usedVersion U hU versions hsmaller
  rcases findVersionIndex_cases U sorted hpw hmemS hcntS with
    ⟨hfind, _⟩ | ⟨hpos, hfind, hlast⟩
  · rw [hfind] at hok
    unfold insertVersionIfMissing at hok
    rw [if_pos rfl] at hok
    rw [← hok]
    unfold calculateVersionDistance
    rw [if_pos]
    simp [List.length_append]
  · rw [hfind] at hok
    unfold insertVersionIfMissing at hok
    rw [if_neg (by omega)] at hok
    rw [if_pos ((eqGo_true_iff _ _).mpr hlast)] at hok
    rw [← hok]
    unfold calculateVersionDistance
    rw [if_pos]
    push_cast
    omega

/-- Witness for C3 at a concrete input: candidates contain 2.0.0 once
and every other candidate is semantically smaller. -/
theorem c3_version_distance_contained_witness :
    getVersionDistance "2.0.0" ["1.0.0", "1.1.0", "2.0.0"] =
      .ok ⟨0, 0, 0, 0⟩ ∧
    "2.0.0" ∈ ["1.0.0", "1.1.0", "2.0.0"] ∧
    (["1.0.0", "1.1.0", "2.0.0"] : List String).count "2.0.0" = 1 := by
  refine ⟨?_, by decide, by decide⟩
  have h := c3_version_distance_contained "2.0.0" ["1.0.0", "1.1.0", "2.0.0"]
    ⟨0, 0, 0, 0⟩ rfl (by decide) (by decide) ?_
  · rfl
  · intro v hv hne gv gu hgv hgu
    fin_cases hv
    · rw [show parseGoVersion "1.0.0" = some ⟨[1, 0, 0], "", ""⟩ from rfl]
        at hgv
      rw [show parseGoVersion "2.0.0" = some ⟨[2, 0, 0], "", ""⟩ from rfl]
        at hgu
      cases hgv
      cases hgu
      rfl
    · rw [show parseGoVersion "1.1.0" = some ⟨[1, 1, 0], "", ""⟩ from rfl]
        at hgv
      rw [show parseGoVersion "2.0.0" = some ⟨[2, 0, 0], "", ""⟩ from rfl]
        at hgu
      cases hgv
      cases hgu
      rfl
    · exact absurd rfl hne

/-- Counterexample to C3 as stated: the candidate list contains the
used version 1.0.0 verbatim, yet GetVersionDistance reports one missed
(minor) release because 1.1.0 is also present — not zero. -/
theorem c3_version_distance_counterexample :
    "1.0.0" ∈ ["1.0.0", "1.1.0"] ∧
    getVersionDistance "1.0.0" ["1.0.0", "1.1.0"] = .ok ⟨1, 0, 1, 0⟩ ∧
    (1 : Int) ≠ 0 := by
  exact ⟨by decide, rfl, by decide⟩

/-! ### Direct dependencies of the root (claim C8) -/

/-- Claim C8 (amended): for every BOM that passes validation,
GetDirectDeps fails with ErrProjectNotFound when no dependency entry
matches the root reference; it fails with ErrNoDirectDependencies when
the root's entry has no dependency list (nil); and — correcting the
claim — an entry with a present-but-empty dependency list yields an
empty result with no error. -/
theorem c8_direct_deps_errors (bom : BOM) (hvalid : validateBOM bom = none) :
    ((∀ d ∈ bomDependencies bom, d.ref ≠ bomRootRef bom) →
      getDirectDeps bom = .error .projectNotFound) ∧
    (∀ d, findProjectDependency (bomDependencies bom) (bomRootRef bom) =
        some d → d.dependsOn = none →
      getDirectDeps bom = .error .noDirectDependencies) ∧
    (∀ d, findProjectDependency (bomDependencies bom) (bomRootRef bom) =
        some d → d.dependsOn = some [] →
      getDirectDeps bom = .ok []) := by
  refine ⟨?_, ?_, ?_⟩
  · intro hnone
    have hfind : findProjectDependency (bomDependencies bom)
        (bomRootRef bom) = none := by
      unfold findProjectDependency
      rw [List.find?_eq_none]
      intro d hd
      simp [hnone d hd]
    unfold getDirectDeps
    rw [hvalid, hfind]
  · intro d hfind hnil
    unfold getDirectDeps
    rw [hvalid]
    simp only [hfind, hnil]
  · intro d hfind hempty
    unfold getDirectDeps
    rw [hvalid]
    simp only [hfind, hempty]
    simp

/-- Witness for C8: a validated BOM whose dependency list has no entry
for the root yields ErrProjectNotFound. -/
theorem c8_direct_deps_errors_witness :
    validateBOM ⟨some ⟨some ⟨"root", "proj", "1.0.0", "", ""⟩⟩, some [],
      some [⟨"other", none⟩]⟩ = none ∧
    getDirectDeps ⟨some ⟨some ⟨"root", "proj", "1.0.0", "", ""⟩⟩, some [],
      some [⟨"other", none⟩]⟩ = .error .projectNotFound := by
  constructor
  · rfl
  · exact (c8_direct_deps_errors
      ⟨some ⟨some ⟨"root", "proj", "1.0.0", "", ""⟩⟩, some [],
        some [⟨"other", none⟩]⟩ rfl).1 (by decide)

/-- Counterexample to C8 as stated: a validated BOM whose root entry
exists with a present-but-empty dependency list makes GetDirectDeps
return an empty list with no error, not ErrNoDirectDependencies (the
code errors only when the list is nil/absent). -/
theorem c8_direct_deps_counterexample :
    validateBOM ⟨some ⟨some ⟨"root", "proj", "1.0.0", "", ""⟩⟩, some [],
      some [⟨"root", some []⟩]⟩ = none ∧
    getDirectDeps ⟨some ⟨some ⟨"root", "proj", "1.0.0", "", ""⟩⟩, some [],
      some [⟨"root", some []⟩]⟩ = .ok [] ∧
    (Except.ok ([] : List Component) ≠
      (.error .noDirectDependencies : Except SbomErr (List Component))) := by
  refine ⟨rfl, rfl, by simp⟩

/-! ### Unreachable targets in the dependency path (claim C9) -/

/-- The breadth-first search returns nothing when every queued
reference is reachable but the target is not. -/
theorem bfsPath_none_of_unreachable (deps : List Dependency)
    (root target : String)
    (hunreach : ¬ Reach (adjacencyOf deps) root target) :
    ∀ fuel queue visited,
      (∀ e ∈ queue, Reach (adjacencyOf deps) root e.1) →
      bfsPath deps target fuel queue visited = none := by
  intro fuel
  induction fuel with
  | zero => intro queue visited _; rfl
  | succ n ih =>
    intro queue visited hq
    cases queue with
    | nil => rfl
    | cons e rest =>
      obtain ⟨r, path⟩ := e
      have hr : Reach (adjacencyOf deps) root r :=
        hq (r, path) (List.mem_cons_self _ _)
      have hne : r ≠ target := fun h => hunreach (h ▸ hr)
      show (if r = target then some (path ++ [r]) else _) = none
      rw [if_neg hne]
      apply ih
      intro e2 he2
      rcases List.mem_append.mp he2 with h1 | h2
      · exact hq e2 (List.mem_cons_of_mem _ h1)
      · rcases List.mem_map.mp h2 with ⟨n2, hn2, rfl⟩
        exact Reach.step hr (List.mem_of_mem_filter hn2)

/-- Claim C9: for every structurally valid BOM and nonempty target
reference that is unreachable from the root along dependency edges,
GetDependencyPath returns nil (none) with no error. -/
theorem c9_unreachable_path_nil (bom : BOM) (targetRef : String)
    (hvalid : validateBOM bom = none) (hne : targetRef ≠ "")
    (hunreach : ¬ Reach (adjacencyOf (bomDependencies bom)) (bomRootRef bom)
      targetRef) :
    getDependencyPath bom targetRef = .ok none := by
  unfold getDependencyPath
  rw [hvalid, if_neg hne]
  have hbfs := bfsPath_none_of_unreachable (bomDependencies bom)
    (bomRootRef bom) targetRef hunreach
    (bfsFuel (bomDependencies bom))
    ((adjacencyOf (bomDependencies bom) (bomRootRef bom)).map (fun n => (n, [])))
    (bomRootRef bom :: adjacencyOf (bomDependencies bom) (bomRootRef bom))
    (by
      intro e he
      rcases List.mem_map.mp he with ⟨n2, hn2, rfl⟩
      exact Reach.base hn2)
  rw [hbfs]

/-- Every reference reachable along an adjacency bounded by a fixed
list of targets lies in that list. -/
theorem reach_subset {adj : String → List String} {root : String}
    {allowed : List String}
    (hadj : ∀ p r, r ∈ adj p → r ∈ allowed) :
    ∀ {t}, Reach adj root t → t ∈ allowed := by
  intro t h
  induction h with
  | base hmem => exact hadj _ _ hmem
  | step hprev hmem ih => exact hadj _ _ hmem

/-- Witness for C9 at the repository's own orphan-component test BOM:
the orphan is not reachable from the project root, and the query
returns nil with no error. -/
theorem c9_unreachable_path_nil_witness :
    validateBOM orphanBOM = none ∧
    getDependencyPath orphanBOM "pkg:npm/orphan@1.0.0" = .ok none := by
  constructor
  · rfl
  · apply c9_unreachable_path_nil orphanBOM "pkg:npm/orphan@1.0.0" rfl
      (by decide)
    intro hreach
    have hsub : ∀ p r, r ∈ adjacencyOf (bomDependencies orphanBOM) p →
        r ∈ ["pkg:npm/direct-dep@1.0.0"] := by
      intro p r hr
      unfold adjacencyOf at hr
      cases hf : (bomDependencies orphanBOM).find? (fun d => d.ref == p) with
      | none =>
        rw [hf] at hr
        simp at hr
      | some d =>
        rw [hf] at hr
        simp only [Option.map_some', Option.getD_some] at hr
        have hd := List.mem_of_find?_eq_some hf
        have hcases : d = ⟨"pkg:npm/project@1.0.0",
            some ["pkg:npm/direct-dep@1.0.0"]⟩ ∨
            d = ⟨"pkg:npm/direct-dep@1.0.0", some []⟩ := by
          simpa [orphanBOM, bomDependencies] using hd
        rcases hcases with rfl | rfl
        · simpa using hr
        · simp at hr
    have hmem := reach_subset hsub hreach
    simp at hmem

/-! ### The batch calculator (claims C4, C10) -/

theorem resLookup_filterMap (job : Component → Option TechnicalLag)
    (l : List Component) (c : Component) :
    resLookup (l.filterMap (fun x => (job x).map (fun v => (x, v)))) c =
      if c ∈ l then job c else none := by
  induction l with
  | nil => simp [resLookup]
  | cons x t ih =>
    cases hx : job x with
    | none =>
      rw [List.filterMap_cons_none (by simp [hx])]
      rw [ih]
      by_cases hcx : c = x
      · subst hcx
        by_cases hct : c ∈ t
        · simp [hct]
        · simp [hct, hx]
      · simp [List.mem_cons, hcx]
    | some v =>
      have hstep : (x :: t).filterMap (fun x => (job x).map (fun v => (x, v))) =
          (x, v) :: t.filterMap (fun x => (job x).map (fun v => (x, v))) := by
        rw [List.filterMap_cons]
        simp [hx]
      rw [hstep]
      by_cases hcx : c = x
      · subst hcx
        unfold resLookup
        rw [List.find?_cons_of_pos _ (by simp)]
        simp [hx]
      · unfold resLookup at ih ⊢
        rw [List.find?_cons_of_neg _ (by
          simp only [beq_iff_eq]
          exact fun hh => hcx hh.symm)]
        rw [ih]
        simp [List.mem_cons, hcx]

/-- Claim C4: the batch fails exactly when the components collection is
nil; otherwise it succeeds and associates exactly the components whose
individual jobs succeeded with their lag — a failed job only omits its
component. -/
theorem c4_calculate_batch (fetch : String → Option APIResponse)
    (bom : BOM) :
    ((∃ e, calculatorCalculate fetch bom = .error e) ↔
      bom.components = none) ∧
    (∀ cs, bom.components = some cs →
      calculatorCalculate fetch bom =
        .ok (cs.filterMap (fun c =>
          (calculateComponentLag fetch c).map (fun lag => (c, lag)))) ∧
      ∀ res, calculatorCalculate fetch bom = .ok res →
        ∀ c, resLookup res c =
          if c ∈ cs then calculateComponentLag fetch c else none) := by
  constructor
  · constructor
    · rintro ⟨e, he⟩
      unfold calculatorCalculate at he
      cases hc : bom.components with
      | none => rfl
      | some l =>
        rw [hc] at he
        exact absurd he (by simp)
    · intro hc
      unfold calculatorCalculate
      rw [hc]
      exact ⟨_, rfl⟩
  · intro cs hcs
    constructor
    · unfold calculatorCalculate
      rw [hcs]
    · intro res hres c
      unfold calculatorCalculate at hres
      rw [hcs] at hres
      simp only [Except.ok.injEq] at hres
      rw [← hres]
      exact resLookup_filterMap (calculateComponentLag fetch) cs c

/-- Witness for C4: a single component whose registry call fails is
omitted without failing the batch, and a nil components collection is
the only batch error. -/
theorem c4_calculate_batch_witness :
    calculatorCalculate (fun _ => none)
        ⟨none, some [⟨"r", "n", "1.0.0", "purl", ""⟩], none⟩ = .ok [] ∧
    (∃ e, calculatorCalculate (fun _ => none) ⟨none, none, none⟩ =
      .error e) := by
  constructor
  · exact ((c4_calculate_batch (fun _ => none)
      ⟨none, some [⟨"r", "n", "1.0.0", "purl", ""⟩], none⟩).2
      [⟨"r", "n", "1.0.0", "purl", ""⟩] rfl).1
  · exact (c4_calculate_batch (fun _ => none) ⟨none, none, none⟩).1.mpr rfl

theorem getLibyear_err_empty_used (vs : List DepsVersion) :
    ∃ e, getLibyear "" vs = .error e := by
  unfold getLibyear
  by_cases h : vs = []
  · rw [if_pos h]
    exact ⟨_, rfl⟩
  · rw [if_neg h]
    exact ⟨SemverErr.emptyVersion, rfl⟩

/-- The concurrent calculator's per-component job agrees with the
sequential implementation's, given that fetching the empty package
identifier fails (both registry clients reject an unparsable PURL). -/
theorem calc_job_eq (fetch : String → Option APIResponse)
    (hfetch : fetch "" = none) (c : Component) :
    calculateComponentLag fetch c = libyearJob fetch c := by
  by_cases hp : c.packageURL = ""
  · simp [calculateComponentLag, libyearJob, hp, hfetch]
  · by_cases hv : c.version = ""
    · cases hf : fetch c.packageURL with
      | none => simp [calculateComponentLag, libyearJob, hp, hv, hf]
      | some resp =>
        rcases getLibyear_err_empty_used (convertVersions resp.versions) with
          ⟨e, he⟩
        simp [calculateComponentLag, libyearJob, hp, hv, hf, he]
    · cases hf : fetch c.packageURL with
      | none => simp [calculateComponentLag, libyearJob, hp, hv, hf]
      | some resp =>
        by_cases hlen : resp.versions.length = 0
        · have hnil : resp.versions = [] := List.length_eq_zero.mp hlen
          simp [calculateComponentLag, libyearJob, hp, hv, hf, hnil,
            convertVersions, getLibyear]
        · simp [calculateComponentLag, libyearJob, hp, hv, hf, hlen]

/-- Claim C10: with a fixed registry mapping (failing on the empty
identifier) and a components collection present, the concurrent
calculator — under every completion order of the worker pool, hence
every pool size — yields the same component-to-lag association as the
sequential libyear.Calculate. -/
theorem c10_concurrent_matches_sequential (fetch : String → Option APIResponse)
    (bom : BOM) (cs order : List Component)
    (hcs : bom.components = some cs)
    (hperm : List.Perm order cs)
    (hfetch : fetch "" = none) :
    ∃ res1 res2,
      calculatorCalculateSched fetch bom order = .ok res1 ∧
      libyearCalculate fetch bom = .ok res2 ∧
      ∀ c, resLookup res1 c = resLookup res2 c := by
  refine ⟨order.filterMap (fun c =>
      (calculateComponentLag fetch c).map (fun lag => (c, lag))),
    cs.filterMap (fun c => (libyearJob fetch c).map (fun lag => (c, lag))),
    ?_, ?_, ?_⟩
  · unfold calculatorCalculateSched
    rw [hcs]
  · unfold libyearCalculate
    rw [hcs]
  · intro c
    rw [resLookup_filterMap (calculateComponentLag fetch) order c,
      resLookup_filterMap (libyearJob fetch) cs c]
    rw [← calc_job_eq fetch hfetch c]
    by_cases hmem : c ∈ order
    · rw [if_pos hmem, if_pos (hperm.mem_iff.mp hmem)]
    · rw [if_neg hmem, if_neg (fun hh => hmem (hperm.mem_iff.mpr hh))]

/-- Witness for C10: a two-component BOM processed in reversed
completion order produces the sequential result. -/
theorem c10_concurrent_matches_sequential_witness :
    (∃ res1 res2,
      calculatorCalculateSched (fun _ => none)
        ⟨none, some [⟨"a", "a", "1.0.0", "pa", ""⟩,
          ⟨"b", "b", "1.0.0", "pb", ""⟩], none⟩
        [⟨"b", "b", "1.0.0", "pb", ""⟩, ⟨"a", "a", "1.0.0", "pa", ""⟩] =
          .ok res1 ∧
      libyearCalculate (fun _ => none)
        ⟨none, some [⟨"a", "a", "1.0.0", "pa", ""⟩,
          ⟨"b", "b", "1.0.0", "pb", ""⟩], none⟩ = .ok res2 ∧
      ∀ c, resLookup res1 c = resLookup res2 c) := by
  exact c10_concurrent_matches_sequential (fun _ => none)
    ⟨none, some [⟨"a", "a", "1.0.0", "pa", ""⟩,
      ⟨"b", "b", "1.0.0", "pb", ""⟩], none⟩
    [⟨"a", "a", "1.0.0", "pa", ""⟩, ⟨"b", "b", "1.0.0", "pb", ""⟩]
    [⟨"b", "b", "1.0.0", "pb", ""⟩, ⟨"a", "a", "1.0.0", "pa", ""⟩]
    rfl (by decide) rfl

/-! ### The criticality score (claim C5) -/

theorem sumDirectLibdays_fold_nonneg (metrics : Component → Option TechnicalLag)
    (hnn : ∀ c m, metrics c = some m → 0 ≤ m.libdays) :
    ∀ (deps : List Component) (a : ℚ), 0 ≤ a →
      0 ≤ deps.foldl (fun acc dep =>
        match metrics dep with
        | some m => acc + m.libdays
        | none => acc) a := by
  intro deps
  induction deps with
  | nil => intro a ha; simpa using ha
  | cons d t ih =>
    intro a ha
    rw [List.foldl_cons]
    cases hd : metrics d with
    | none =>
      simp only [hd]
      exact ih a ha
    | some m =>
      simp only [hd]
      exact ih (a + m.libdays) (add_nonneg ha (hnn d m hd))

theorem sumDirectLibdays_nonneg (metrics : Component → Option TechnicalLag)
    (hnn : ∀ c m, metrics c = some m → 0 ≤ m.libdays)
    (deps : List Component) : 0 ≤ sumDirectLibdays metrics deps :=
  sumDirectLibdays_fold_nonneg metrics hnn deps 0 (le_refl 0)

theorem sumDirectLibdays_none (metrics : Component → Option TechnicalLag) :
    ∀ (deps : List Component), (∀ d ∈ deps, metrics d = none) →
      ∀ a, deps.foldl (fun acc dep =>
        match metrics dep with
        | some m => acc + m.libdays
        | none => acc) a = a := by
  intro deps
  induction deps with
  | nil => intro _ a; rfl
  | cons d t ih =>
    intro hall a
    rw [List.foldl_cons]
    simp only [hall d (List.mem_cons_self d t)]
    exact ih (fun x hx => hall x (List.mem_cons_of_mem d hx)) a

/-- Claim C5: under the calculator's output domain (non-negative lag
values and a non-negative scope total), the criticality score is
non-negative; it is zero when the denominator is zero or the component
has no direct-dependency lag data; and it is at most one when the
direct-dependency sum does not exceed the scope total. -/
theorem c5_criticality_score (component : Component) (bom : BOM)
    (metrics : Component → Option TechnicalLag) (total : ℚ)
    (hnn : ∀ c m, metrics c = some m → 0 ≤ m.libdays)
    (htot : 0 ≤ total) :
    0 ≤ calculateCriticalityScore component bom metrics total ∧
    (total = 0 → calculateCriticalityScore component bom metrics total = 0) ∧
    (∀ ds, getDirectDependenciesOf bom component.bomRef = .ok ds →
      (∀ d ∈ ds, metrics d = none) →
      calculateCriticalityScore component bom metrics total = 0) ∧
    (∀ ds, getDirectDependenciesOf bom component.bomRef = .ok ds →
      sumDirectLibdays metrics ds ≤ total →
      calculateCriticalityScore component bom metrics total ≤ 1) := by
  unfold calculateCriticalityScore
  by_cases h0 : total = 0
  · rw [if_pos h0]
    exact ⟨le_refl 0, fun _ => rfl, fun _ _ _ => rfl, fun _ _ _ => by norm_num⟩
  · rw [if_neg h0]
    have hpos : 0 < total := lt_of_le_of_ne htot (Ne.symm h0)
    cases hd : getDirectDependenciesOf bom component.bomRef with
    | error e =>
      exact ⟨le_refl 0, fun ht => absurd ht h0, fun _ _ _ => rfl,
        fun _ _ _ => by norm_num⟩
    | ok ds =>
      refine ⟨?_, fun ht => absurd ht h0, ?_, ?_⟩
      · exact div_nonneg (sumDirectLibdays_nonneg metrics hnn ds)
          (le_of_lt hpos)
      · intro ds2 hds2 hall
        obtain rfl : ds = ds2 := Except.ok.inj hds2
        show sumDirectLibdays metrics ds / total = 0
        unfold sumDirectLibdays
        rw [sumDirectLibdays_none metrics ds hall 0]
        simp
      · intro ds2 hds2 hsum
        obtain rfl : ds = ds2 := Except.ok.inj hds2
        exact (div_le_one hpos).mpr hsum

/-- Witness for C5 at a concrete validated BOM: the root has one direct
dependency with one libday of lag out of a scope total of two, giving
a score between zero and one. -/
theorem c5_criticality_score_witness :
    0 ≤ calculateCriticalityScore ⟨"root", "p", "1.0.0", "", ""⟩
      ⟨some ⟨some ⟨"root", "p", "1.0.0", "", ""⟩⟩,
        some [⟨"dep", "d", "1.0.0", "", ""⟩],
        some [⟨"root", some ["dep"]⟩]⟩
      (fun c => if c.bomRef = "dep" then
        some ⟨1, ⟨0, 0, 0, 0⟩⟩ else none) 2 ∧
    calculateCriticalityScore ⟨"root", "p", "1.0.0", "", ""⟩
      ⟨some ⟨some ⟨"root", "p", "1.0.0", "", ""⟩⟩,
        some [⟨"dep", "d", "1.0.0", "", ""⟩],
        some [⟨"root", some ["dep"]⟩]⟩
      (fun c => if c.bomRef = "dep" then
        some ⟨1, ⟨0, 0, 0, 0⟩⟩ else none) 2 ≤ 1 := by
  have h := c5_criticality_score ⟨"root", "p", "1.0.0", "", ""⟩
    ⟨some ⟨some ⟨"root", "p", "1.0.0", "", ""⟩⟩,
      some [⟨"dep", "d", "1.0.0", "", ""⟩],
      some [⟨"root", some ["dep"]⟩]⟩
    (fun c => if c.bomRef = "dep" then
      some ⟨1, ⟨0, 0, 0, 0⟩⟩ else none) 2
    (by
      intro c m hm
      simp only [] at hm
      by_cases hc : c.bomRef = "dep"
      · rw [if_pos hc] at hm
        obtain rfl : (⟨1, ⟨0, 0, 0, 0⟩⟩ : TechnicalLag) = m :=
          Option.some.inj hm
        norm_num
      · rw [if_neg hc] at hm
        exact absurd hm (by simp))
    (by norm_num)
  refine ⟨h.1, h.2.2.2 [⟨"dep", "d", "1.0.0", "", ""⟩] rfl ?_⟩
  show sumDirectLibdays _ [⟨"dep", "d", "1.0.0", "", ""⟩] ≤ (2 : ℚ)
  norm_num [sumDirectLibdays]

/-! ### The hot-path walk (claim C6) -/

theorem mk_contribution (a : Component) (b c d : ℚ) :
    (HotPathComponent.mk a b c d).contribution = b := rfl

theorem sumContrib_nil : sumContrib [] = 0 := rfl

theorem sumContrib_foldl (l : List HotPathComponent) :
    ∀ a : ℚ, l.foldl (fun acc c => acc + c.contribution) a = a + sumContrib l := by
  induction l with
  | nil => intro a; simp [sumContrib]
  | cons c t ih =>
    intro a
    rw [List.foldl_cons, ih (a + c.contribution)]
    show _ = a + (c :: t).foldl (fun acc c => acc + c.contribution) 0
    rw [List.foldl_cons, ih (0 + c.contribution)]
    ring

theorem sumContrib_cons (c : HotPathComponent) (l : List HotPathComponent) :
    sumContrib (c :: l) = c.contribution + sumContrib l := by
  show (c :: l).foldl (fun acc c => acc + c.contribution) 0 = _
  rw [List.foldl_cons, sumContrib_foldl]
  ring

theorem sumContrib_nonneg (l : List HotPathComponent)
    (h : ∀ c ∈ l, 0 ≤ c.contribution) : 0 ≤ sumContrib l := by
  induction l with
  | nil => simp [sumContrib]
  | cons c t ih =>
    rw [sumContrib_cons]
    exact add_nonneg (h c (List.mem_cons_self c t))
      (ih (fun x hx => h x (List.mem_cons_of_mem c hx)))

theorem sumContrib_pos_ne_nil (l : List HotPathComponent)
    (hpos : ∀ c ∈ l, 0 < c.contribution) (h0 : sumContrib l = 0) : l = [] := by
  cases l with
  | nil => rfl
  | cons c t =>
    exfalso
    rw [sumContrib_cons] at h0
    have hc := hpos c (List.mem_cons_self c t)
    have ht := sumContrib_nonneg t
      (fun x hx => le_of_lt (hpos x (List.mem_cons_of_mem c hx)))
    linarith

theorem sumContrib_eq_map_sum (l : List HotPathComponent) :
    sumContrib l = (l.map (fun c => c.contribution)).sum := by
  induction l with
  | nil => rfl
  | cons c t ih => rw [sumContrib_cons, List.map_cons, List.sum_cons, ih]

theorem sumContrib_of_perm (l m : List HotPathComponent) (h : List.Perm l m) :
    sumContrib l = sumContrib m := by
  rw [sumContrib_eq_map_sum, sumContrib_eq_map_sum]
  exact List.Perm.sum_eq (List.Perm.map _ h)

theorem hotPathWalk_key_take (total th : ℚ) :
    ∀ (l : List HotPathComponent) (cum : ℚ),
      (hotPathWalk total th cum l).map hpKey =
        ((l.map hpKey).take (hotPathWalk total th cum l).length) := by
  intro l
  induction l with
  | nil => intro cum; rfl
  | cons c rest ih =>
    intro cum
    unfold hotPathWalk
    by_cases hb : th ≤ cum + c.contribution
    · rw [if_pos hb]
      rfl
    · rw [if_neg hb]
      simp only [List.map_cons, List.length_cons, List.take_succ_cons,
        List.cons.injEq]
      exact ⟨rfl, ih (cum + c.contribution)⟩

theorem hotPathWalk_sum_ge (total th : ℚ) :
    ∀ (l : List HotPathComponent) (cum : ℚ),
      th ≤ cum + sumContrib l →
      th ≤ cum + sumContrib (hotPathWalk total th cum l) := by
  intro l
  induction l with
  | nil => intro cum h; exact h
  | cons c rest ih =>
    intro cum h
    rw [sumContrib_cons] at h
    unfold hotPathWalk
    by_cases hb : th ≤ cum + c.contribution
    · rw [if_pos hb]
      rw [sumContrib_cons, mk_contribution, sumContrib_nil]
      linarith
    · rw [if_neg hb]
      rw [sumContrib_cons, mk_contribution]
      have hih := ih (cum + c.contribution) (by linarith)
      linarith

theorem hotPathWalk_all (total th : ℚ) :
    ∀ (l : List HotPathComponent) (cum : ℚ),
      (∀ c ∈ l, 0 ≤ c.contribution) →
      cum + sumContrib l < th →
      (hotPathWalk total th cum l).map hpKey = l.map hpKey := by
  intro l
  induction l with
  | nil => intro cum _ _; rfl
  | cons c rest ih =>
    intro cum hpos hlt
    have hrest : 0 ≤ sumContrib rest :=
      sumContrib_nonneg rest (fun x hx => hpos x (List.mem_cons_of_mem c hx))
    rw [sumContrib_cons] at hlt
    unfold hotPathWalk
    have hb : ¬ th ≤ cum + c.contribution := by linarith
    rw [if_neg hb]
    simp only [List.map_cons, List.cons.injEq]
    exact ⟨rfl, ih (cum + c.contribution)
      (fun x hx => hpos x (List.mem_cons_of_mem c hx)) (by linarith)⟩

theorem hotPathWalk_minimal (total th : ℚ) :
    ∀ (l : List HotPathComponent) (cum : ℚ), cum < th →
      ∀ n, n < (hotPathWalk total th cum l).length →
        cum + sumContrib (l.take n) < th := by
  intro l
  induction l with
  | nil =>
    intro cum _ n hn
    simp [hotPathWalk] at hn
  | cons c rest ih =>
    intro cum hcum n hn
    cases n with
    | zero =>
      simp only [List.take_zero, sumContrib_nil, add_zero]
      exact hcum
    | succ k =>
      unfold hotPathWalk at hn
      by_cases hb : th ≤ cum + c.contribution
      · rw [if_pos hb] at hn
        exact absurd hn (by simp)
      · rw [if_neg hb] at hn
        simp only [List.length_cons] at hn
        have hb' : cum + c.contribution < th := not_le.mp hb
        have hk := ih (cum + c.contribution) hb' k (by omega)
        rw [List.take_succ_cons, sumContrib_cons]
        linarith

theorem hotPathWalk_ne_nil (total th cum : ℚ) (c : HotPathComponent)
    (l : List HotPathComponent) : hotPathWalk total th cum (c :: l) ≠ [] := by
  unfold hotPathWalk
  by_cases hb : th ≤ cum + c.contribution
  · rw [if_pos hb]; simp
  · rw [if_neg hb]; simp

theorem libyearContributors_pos (stats : TechLagStats) :
    ∀ c ∈ libyearContributors stats, 0 < c.contribution := by
  intro c hc
  unfold libyearContributors at hc
  rw [List.mem_filterMap] at hc
  obtain ⟨comp, _, hcomp⟩ := hc
  by_cases hp : 0 < comp.libdays
  · rw [if_pos hp] at hcomp
    obtain rfl := Option.some.inj hcomp
    exact hp
  · rw [if_neg hp] at hcomp
    exact absurd hcomp (by simp)

theorem vdContributors_pos (stats : TechLagStats) :
    ∀ c ∈ vdContributors stats, 0 < c.contribution := by
  intro c hc
  unfold vdContributors at hc
  rw [List.mem_filterMap] at hc
  obtain ⟨comp, _, hcomp⟩ := hc
  by_cases hp : 0 < comp.missedReleases
  · rw [if_pos hp] at hcomp
    obtain rfl := Option.some.inj hcomp
    show (0 : ℚ) < (comp.missedReleases : ℚ)
    exact_mod_cast hp
  · rw [if_neg hp] at hcomp
    exact absurd hcomp (by simp)

theorem libyearContributors_sum (t : ℚ) :
    ∀ (comps : List ComponentLag), (∀ cl ∈ comps, 0 ≤ cl.libdays) →
      sumContrib (comps.filterMap (fun comp =>
        if 0 < comp.libdays then
          some ⟨comp.component, comp.libdays, comp.libdays / t * 100, 0⟩
        else none)) = (comps.map (fun cl => cl.libdays)).sum := by
  intro comps
  induction comps with
  | nil => intro _; rfl
  | cons comp rest ih =>
    intro hnn
    have hrest := fun x hx => hnn x (List.mem_cons_of_mem comp hx)
    by_cases hp : 0 < comp.libdays
    · simp only [List.filterMap_cons, if_pos hp]
      rw [sumContrib_cons, mk_contribution, List.map_cons, List.sum_cons,
        ih hrest]
    · simp only [List.filterMap_cons, if_neg hp]
      rw [List.map_cons, List.sum_cons, ih hrest]
      have h0 : comp.libdays = 0 :=
        le_antisymm (not_lt.mp hp) (hnn comp (List.mem_cons_self comp rest))
      rw [h0]
      ring

theorem vdContributors_sum (t : ℚ) :
    ∀ (comps : List ComponentLag), (∀ cl ∈ comps, 0 ≤ cl.missedReleases) →
      sumContrib (comps.filterMap (fun comp =>
        if 0 < comp.missedReleases then
          some ⟨comp.component, (comp.missedReleases : ℚ),
            (comp.missedReleases : ℚ) / t * 100, 0⟩
        else none)) =
        (((comps.map (fun cl => cl.missedReleases)).sum : Int) : ℚ) := by
  intro comps
  induction comps with
  | nil => intro _; rfl
  | cons comp rest ih =>
    intro hnn
    have hrest := fun x hx => hnn x (List.mem_cons_of_mem comp hx)
    by_cases hp : 0 < comp.missedReleases
    · simp only [List.filterMap_cons, if_pos hp]
      rw [sumContrib_cons, mk_contribution, List.map_cons, List.sum_cons,
        ih hrest]
      push_cast
      ring
    · simp only [List.filterMap_cons, if_neg hp]
      rw [List.map_cons, List.sum_cons, ih hrest]
      have h0 : comp.missedReleases = 0 :=
        le_antisymm (not_lt.mp hp) (hnn comp (List.mem_cons_self comp rest))
      rw [h0]
      push_cast
      ring

/-- Claim C6: for every scope bucket with non-negative per-component lag
values, the hot-path walk of both analyzers takes a minimal prefixed
segment of the contribution-sorted positive contributors that reaches
the 50-percent threshold: the walked keys are an initial segment of the
sorted list; every proper initial segment stays below the threshold; if
the bucket total is zero and consistent with the component sum the
hot-path set is empty; if the total is positive and consistent the
accumulated contribution reaches the threshold and the coverage is at
least 50; and if the sorted contributors together stay below the
threshold the walk returns all of them (for a consistent bucket that
branch forces coverage 100). -/
theorem c6_hotpath_threshold (stats : TechLagStats) (scope : String)
    (hnnL : ∀ cl ∈ stats.components, 0 ≤ cl.libdays)
    (hnnM : ∀ cl ∈ stats.components, 0 ≤ cl.missedReleases) :
    (((analyzeLibyearsHotPath stats scope).hotPathComponents.map hpKey =
        ((libyearSorted stats).map hpKey).take
          (analyzeLibyearsHotPath stats scope).hotPathComponents.length) ∧
      (0 < stats.libdays →
        ∀ n < (analyzeLibyearsHotPath stats scope).hotPathComponents.length,
          sumContrib ((libyearSorted stats).take n) <
            (analyzeLibyearsHotPath stats scope).hotPathThreshold) ∧
      (stats.libdays = statsLibSum stats → stats.libdays = 0 →
        (analyzeLibyearsHotPath stats scope).hotPathComponents = []) ∧
      (stats.libdays = statsLibSum stats → 0 < stats.libdays →
        (analyzeLibyearsHotPath stats scope).hotPathThreshold ≤
          sumContrib (analyzeLibyearsHotPath stats scope).hotPathComponents ∧
        50 ≤ (analyzeLibyearsHotPath stats scope).hotPathCoverage) ∧
      (sumContrib (libyearSorted stats) <
          (analyzeLibyearsHotPath stats scope).hotPathThreshold →
        (analyzeLibyearsHotPath stats scope).hotPathComponents.map hpKey =
          (libyearSorted stats).map hpKey ∧
        (stats.libdays = statsLibSum stats →
          (analyzeLibyearsHotPath stats scope).hotPathCoverage = 100))) ∧
    (((analyzeVersionDistanceHotPath stats scope).hotPathComponents.map hpKey =
        ((vdSorted stats).map hpKey).take
          (analyzeVersionDistanceHotPath stats scope).hotPathComponents.length) ∧
      (0 < stats.missedReleases →
        ∀ n <
            (analyzeVersionDistanceHotPath stats scope).hotPathComponents.length,
          sumContrib ((vdSorted stats).take n) <
            (analyzeVersionDistanceHotPath stats scope).hotPathThreshold) ∧
      (stats.missedReleases = statsMissedSum stats → stats.missedReleases = 0 →
        (analyzeVersionDistanceHotPath stats scope).hotPathComponents = []) ∧
      (stats.missedReleases = statsMissedSum stats → 0 < stats.missedReleases →
        (analyzeVersionDistanceHotPath stats scope).hotPathThreshold ≤
          sumContrib
            (analyzeVersionDistanceHotPath stats scope).hotPathComponents ∧
        50 ≤ (analyzeVersionDistanceHotPath stats scope).hotPathCoverage) ∧
      (sumContrib (vdSorted stats) <
          (analyzeVersionDistanceHotPath stats scope).hotPathThreshold →
        (analyzeVersionDistanceHotPath stats scope).hotPathComponents.map hpKey =
          (vdSorted stats).map hpKey ∧
        (stats.missedReleases = statsMissedSum stats →
          (analyzeVersionDistanceHotPath stats scope).hotPathCoverage = 100))) := by
  have hposL : ∀ c ∈ libyearContributors stats, 0 < c.contribution :=
    libyearContributors_pos stats
  have hpermL : List.Perm (libyearSorted stats) (libyearContributors stats) :=
    sortCmp_perm cmpContrib _
  have hposLS : ∀ c ∈ libyearSorted stats, 0 < c.contribution :=
    fun c hc => hposL c (hpermL.mem_iff.mp hc)
  have hsumLS : sumContrib (libyearSorted stats) =
      sumContrib (libyearContributors stats) :=
    sumContrib_of_perm _ _ hpermL
  have hcontrL : sumContrib (libyearContributors stats) = statsLibSum stats := by
    unfold libyearContributors statsLibSum
    exact libyearContributors_sum stats.libdays stats.components hnnL
  have h0L : 0 ≤ statsLibSum stats := by
    unfold statsLibSum
    apply List.sum_nonneg
    intro x hx
    obtain ⟨cl, hcl, rfl⟩ := List.mem_map.mp hx
    exact hnnL cl hcl
  have hposM : ∀ c ∈ vdContributors stats, 0 < c.contribution :=
    vdContributors_pos stats
  have hpermM : List.Perm (vdSorted stats) (vdContributors stats) :=
    sortCmp_perm cmpContrib _
  have hposMS : ∀ c ∈ vdSorted stats, 0 < c.contribution :=
    fun c hc => hposM c (hpermM.mem_iff.mp hc)
  have hsumMS : sumContrib (vdSorted stats) =
      sumContrib (vdContributors stats) :=
    sumContrib_of_perm _ _ hpermM
  have hcontrM : sumContrib (vdContributors stats) =
      ((statsMissedSum stats : Int) : ℚ) := by
    unfold vdContributors statsMissedSum
    exact vdContributors_sum (stats.missedReleases : ℚ) stats.components hnnM
  have h0M : (0 : Int) ≤ statsMissedSum stats := by
    unfold statsMissedSum
    apply List.sum_nonneg
    intro x hx
    obtain ⟨cl, hcl, rfl⟩ := List.mem_map.mp hx
    exact hnnM cl hcl
  refine ⟨⟨?_, ?_, ?_, ?_, ?_⟩, ?_, ?_, ?_, ?_, ?_⟩
  · exact hotPathWalk_key_take stats.libdays (stats.libdays * (1 / 2))
      (libyearSorted stats) 0
  · intro hpos n hn
    have hmin := hotPathWalk_minimal stats.libdays (stats.libdays * (1 / 2))
      (libyearSorted stats) 0 (by linarith) n hn
    show sumContrib ((libyearSorted stats).take n) < stats.libdays * (1 / 2)
    linarith
  · intro hH2 h0
    have hzero : sumContrib (libyearContributors stats) = 0 := by
      rw [hcontrL, ← hH2]
      exact h0
    have hc0 : libyearContributors stats = [] :=
      sumContrib_pos_ne_nil _ hposL hzero
    show libyearHot stats = []
    unfold libyearHot libyearSorted
    rw [hc0]
    rfl
  · intro hH2 hpos
    have htot : sumContrib (libyearSorted stats) = stats.libdays := by
      rw [hsumLS, hcontrL, ← hH2]
    have hge := hotPathWalk_sum_ge stats.libdays (stats.libdays * (1 / 2))
      (libyearSorted stats) 0 (by rw [htot]; linarith)
    have hne : hotPathWalk stats.libdays (stats.libdays * (1 / 2)) 0
        (libyearSorted stats) ≠ [] := by
      have hsne : libyearSorted stats ≠ [] := by
        intro hnil
        rw [hnil, sumContrib_nil] at htot
        linarith
      cases hs : libyearSorted stats with
      | nil => exact absurd hs hsne
      | cons c t =>
        exact hotPathWalk_ne_nil _ _ _ c t
    constructor
    · show stats.libdays * (1 / 2) ≤ sumContrib (hotPathWalk stats.libdays
        (stats.libdays * (1 / 2)) 0 (libyearSorted stats))
      linarith
    · show 50 ≤ if hotPathWalk stats.libdays (stats.libdays * (1 / 2)) 0
          (libyearSorted stats) = [] then 0
        else sumContrib (hotPathWalk stats.libdays (stats.libdays * (1 / 2)) 0
          (libyearSorted stats)) / stats.libdays * 100
      rw [if_neg hne, div_mul_eq_mul_div, le_div_iff hpos]
      linarith
  · intro hlt
    have hlt' : sumContrib (libyearSorted stats) < stats.libdays * (1 / 2) := hlt
    constructor
    · exact hotPathWalk_all stats.libdays (stats.libdays * (1 / 2))
        (libyearSorted stats) 0 (fun c hc => le_of_lt (hposLS c hc))
        (by linarith)
    · intro hH2
      exfalso
      have htot : sumContrib (libyearSorted stats) = stats.libdays := by
        rw [hsumLS, hcontrL, ← hH2]
      rw [← hH2] at h0L
      linarith
  · exact hotPathWalk_key_take (stats.missedReleases : ℚ)
      ((stats.missedReleases : ℚ) * (1 / 2)) (vdSorted stats) 0
  · intro hpos n hn
    have hposQ : (0 : ℚ) < (stats.missedReleases : ℚ) := by exact_mod_cast hpos
    have hmin := hotPathWalk_minimal (stats.missedReleases : ℚ)
      ((stats.missedReleases : ℚ) * (1 / 2)) (vdSorted stats) 0
      (by linarith) n hn
    show sumContrib ((vdSorted stats).take n) <
      (stats.missedReleases : ℚ) * (1 / 2)
    linarith
  · intro hH2 h0
    have hzero : sumContrib (vdContributors stats) = 0 := by
      rw [hcontrM, ← hH2, h0]
      exact Int.cast_zero
    have hc0 : vdContributors stats = [] :=
      sumContrib_pos_ne_nil _ hposM hzero
    show vdHot stats = []
    unfold vdHot vdSorted
    rw [hc0]
    rfl
  · intro hH2 hpos
    have hposQ : (0 : ℚ) < (stats.missedReleases : ℚ) := by exact_mod_cast hpos
    have htot : sumContrib (vdSorted stats) = (stats.missedReleases : ℚ) := by
      rw [hsumMS, hcontrM, ← hH2]
    have hge := hotPathWalk_sum_ge (stats.missedReleases : ℚ)
      ((stats.missedReleases : ℚ) * (1 / 2)) (vdSorted stats) 0
      (by rw [htot]; linarith)
    have hne : hotPathWalk (stats.missedReleases : ℚ)
        ((stats.missedReleases : ℚ) * (1 / 2)) 0 (vdSorted stats) ≠ [] := by
      have hsne : vdSorted stats ≠ [] := by
        intro hnil
        rw [hnil, sumContrib_nil] at htot
        linarith
      cases hs : vdSorted stats with
      | nil => exact absurd hs hsne
      | cons c t =>
        exact hotPathWalk_ne_nil _ _ _ c t
    constructor
    · show (stats.missedReleases : ℚ) * (1 / 2) ≤
        sumContrib (hotPathWalk (stats.missedReleases : ℚ)
          ((stats.missedReleases : ℚ) * (1 / 2)) 0 (vdSorted stats))
      linarith
    · show 50 ≤ if hotPathWalk (stats.missedReleases : ℚ)
          ((stats.missedReleases : ℚ) * (1 / 2)) 0 (vdSorted stats) = [] then 0
        else sumContrib (hotPathWalk (stats.missedReleases : ℚ)
          ((stats.missedReleases : ℚ) * (1 / 2)) 0 (vdSorted stats)) /
          (stats.missedReleases : ℚ) * 100
      rw [if_neg hne, div_mul_eq_mul_div, le_div_iff hposQ]
      linarith
  · intro hlt
    have hlt' : sumContrib (vdSorted stats) <
        (stats.missedReleases : ℚ) * (1 / 2) := hlt
    constructor
    · exact hotPathWalk_all (stats.missedReleases : ℚ)
        ((stats.missedReleases : ℚ) * (1 / 2)) (vdSorted stats) 0
        (fun c hc => le_of_lt (hposMS c hc)) (by linarith)
    · intro hH2
      exfalso
      have htot : sumContrib (vdSorted stats) = (stats.missedReleases : ℚ) := by
        rw [hsumMS, hcontrM, ← hH2]
      rw [← hH2] at h0M
      have h0Q : (0 : ℚ) ≤ (stats.missedReleases : ℚ) := by exact_mod_cast h0M
      linarith

/-- Witness for C6 at a three-component bucket whose libyears split
45/30/25 out of a consistent total of 100: the libyears hot-path
coverage reaches the 50-percent mark. -/
theorem c6_hotpath_threshold_witness :
    50 ≤ (analyzeLibyearsHotPath
      ⟨100, 100, 3,
        [⟨⟨"a", "a", "1.0.0", "", ""⟩, 45, 45, 0, 0, 0⟩,
         ⟨⟨"b", "b", "1.0.0", "", ""⟩, 30, 30, 0, 0, 0⟩,
         ⟨⟨"c", "c", "1.0.0", "", ""⟩, 25, 25, 0, 0, 0⟩]⟩
      "production").hotPathCoverage := by
  have h := c6_hotpath_threshold
    ⟨100, 100, 3,
      [⟨⟨"a", "a", "1.0.0", "", ""⟩, 45, 45, 0, 0, 0⟩,
       ⟨⟨"b", "b", "1.0.0", "", ""⟩, 30, 30, 0, 0, 0⟩,
       ⟨⟨"c", "c", "1.0.0", "", ""⟩, 25, 25, 0, 0, 0⟩]⟩
    "production"
    (by intro cl hcl; fin_cases hcl <;> norm_num)
    (by intro cl hcl; fin_cases hcl <;> norm_num)
  exact (h.1.2.2.2.1 (by norm_num [statsLibSum]) (by norm_num)).2

end TLA
